import Mathlib

/-
Shallow embedding of `src/blosc/memcopy.h` (the c-blosc data-movement kernel).

Modelled build configuration: `UNALIGNED_OK` and `__SSE2__` are defined, so
`copy_bytes`/`set_bytes` use their switch-based bodies, `copy_16_bytes` and
`chunk_memcpy_16` exist, and `safe_copy` compares pointer distances against
`sizeof(__m128i) = 16`.

Memory is a total map from (pointer-sized) integer addresses to byte values.
Each routine takes the current memory and the `out`/`from` cursors and returns
the new memory together with the advanced destination cursor, exactly like the
C routines return `out + len`.  `MEMCPY(&chunk, from, k); MEMCPY(out, &chunk, k)`
reads all `k` source bytes into a temporary before writing, which is what
`copyAtomic` captures; `MEMSET(out, c, k)` is `memsetAtomic`.

The word `from` is a Lean keyword, so the parameter is named `fr` throughout;
every function keeps its C name.
-/

/-- Byte-addressed memory: a total map from addresses to byte values. -/
abbrev Mem : Type := Int → Nat

/-- One `MEMCPY`-pair of a `k`-byte load into a temporary followed by a
`k`-byte store: the `k` source bytes are all read from the pre-state. -/
def copyAtomic (k : Nat) (m : Mem) (out fr : Int) : Mem :=
  fun a => if out ≤ a ∧ a < out + (k : Int) then m (fr + (a - out)) else m a

/-- One `MEMSET(out, c, k)`: store byte `c` at `k` consecutive addresses. -/
def memsetAtomic (k : Nat) (m : Mem) (out : Int) (c : Nat) : Mem :=
  fun a => if out ≤ a ∧ a < out + (k : Int) then c else m a

/-- `copy_1_bytes`: `*out++ = *from`. -/
def copy_1_bytes (m : Mem) (out fr : Int) : Mem × Int :=
  (copyAtomic 1 m out fr, out + 1)

/-- `copy_2_bytes`: 16-bit load/store through a `uint16_t` temporary. -/
def copy_2_bytes (m : Mem) (out fr : Int) : Mem × Int :=
  (copyAtomic 2 m out fr, out + 2)

/-- `copy_3_bytes = copy_1_bytes` then `copy_2_bytes(out, from + 1)`. -/
def copy_3_bytes (m : Mem) (out fr : Int) : Mem × Int :=
  let r := copy_1_bytes m out fr
  copy_2_bytes r.1 r.2 (fr + 1)

/-- `copy_4_bytes`: 32-bit load/store through a `uint32_t` temporary. -/
def copy_4_bytes (m : Mem) (out fr : Int) : Mem × Int :=
  (copyAtomic 4 m out fr, out + 4)

/-- `copy_5_bytes = copy_1_bytes` then `copy_4_bytes(out, from + 1)`. -/
def copy_5_bytes (m : Mem) (out fr : Int) : Mem × Int :=
  let r := copy_1_bytes m out fr
  copy_4_bytes r.1 r.2 (fr + 1)

/-- `copy_6_bytes = copy_2_bytes` then `copy_4_bytes(out, from + 2)`. -/
def copy_6_bytes (m : Mem) (out fr : Int) : Mem × Int :=
  let r := copy_2_bytes m out fr
  copy_4_bytes r.1 r.2 (fr + 2)

/-- `copy_7_bytes = copy_3_bytes` then `copy_4_bytes(out, from + 3)`. -/
def copy_7_bytes (m : Mem) (out fr : Int) : Mem × Int :=
  let r := copy_3_bytes m out fr
  copy_4_bytes r.1 r.2 (fr + 3)

/-- `copy_8_bytes`: 64-bit load/store through a `uint64_t` temporary. -/
def copy_8_bytes (m : Mem) (out fr : Int) : Mem × Int :=
  (copyAtomic 8 m out fr, out + 8)

/-- `copy_16_bytes` (SSE2): unaligned 128-bit vector load/store. -/
def copy_16_bytes (m : Mem) (out fr : Int) : Mem × Int :=
  (copyAtomic 16 m out fr, out + 16)

/-- `copy_bytes(out, from, len)`: switch on `len` (7 or fewer) dispatching to
the fixed-width primitives; `case 0` and the `default` (which has `assert(0)`)
both fall out to `return out`. -/
def copy_bytes (m : Mem) (out fr : Int) (len : Nat) : Mem × Int :=
  if len = 7 then copy_7_bytes m out fr
  else if len = 6 then copy_6_bytes m out fr
  else if len = 5 then copy_5_bytes m out fr
  else if len = 4 then copy_4_bytes m out fr
  else if len = 3 then copy_3_bytes m out fr
  else if len = 2 then copy_2_bytes m out fr
  else if len = 1 then copy_1_bytes m out fr
  else (m, out)

/-- Body of `case 1` in `set_bytes`: `c = *from` then `MEMSET(out, c, len)` for
`len` in 2..7; the `default` (`assert(0); break`) falls out to `return out`. -/
def set_bytes_dist1 (m : Mem) (out fr : Int) (len : Nat) : Mem × Int :=
  let c := m fr
  if len = 7 then (memsetAtomic 7 m out c, out + 7)
  else if len = 6 then (memsetAtomic 6 m out c, out + 6)
  else if len = 5 then (memsetAtomic 5 m out c, out + 5)
  else if len = 4 then (memsetAtomic 4 m out c, out + 4)
  else if len = 3 then (memsetAtomic 3 m out c, out + 3)
  else if len = 2 then (memsetAtomic 2 m out c, out + 2)
  else (m, out)

/-- Body of `case 2` in `set_bytes`: copy the 2-byte pattern, then finish by an
inner switch on `len`.  The inner `default` (`assert(0); break`) falls through
into `case 1` of the outer switch, i.e. into `set_bytes_dist1`. -/
def set_bytes_dist2 (m : Mem) (out fr : Int) (len : Nat) : Mem × Int :=
  let r := copy_2_bytes m out fr
  if len = 7 then
    let r2 := copy_4_bytes r.1 r.2 fr
    copy_1_bytes r2.1 r2.2 fr
  else if len = 6 then copy_4_bytes r.1 r.2 fr
  else if len = 5 then
    let r2 := copy_2_bytes r.1 r.2 fr
    copy_1_bytes r2.1 r2.2 fr
  else if len = 4 then copy_2_bytes r.1 r.2 fr
  else if len = 3 then copy_1_bytes r.1 r.2 fr
  else set_bytes_dist1 r.1 r.2 fr len

/-- `set_bytes(out, from, dist, len)`: if `dist >= len` delegate to
`copy_bytes`; otherwise switch on `dist`.  `case 3`'s inner `default`
(`assert(0); break`) falls through into `case 2`, whose inner `default` falls
through into `case 1`; a `dist` with no matching case (0 or ≥ 7 here) skips the
switch and returns `out` unchanged. -/
def set_bytes (m : Mem) (out fr : Int) (dist len : Nat) : Mem × Int :=
  if len ≤ dist then copy_bytes m out fr len
  else if dist = 6 then
    let r := copy_6_bytes m out fr
    copy_1_bytes r.1 r.2 fr
  else if dist = 5 then
    let r := copy_5_bytes m out fr
    copy_bytes r.1 r.2 fr (len - 5)
  else if dist = 4 then
    let r := copy_4_bytes m out fr
    copy_bytes r.1 r.2 fr (len - 4)
  else if dist = 3 then
    let r := copy_3_bytes m out fr
    if len = 7 then copy_4_bytes r.1 r.2 fr
    else if len = 6 then copy_3_bytes r.1 r.2 fr
    else if len = 5 then copy_2_bytes r.1 r.2 fr
    else if len = 4 then copy_1_bytes r.1 r.2 fr
    else set_bytes_dist2 r.1 r.2 fr len
  else if dist = 2 then set_bytes_dist2 m out fr len
  else if dist = 1 then set_bytes_dist1 m out fr len
  else (m, out)

/-- A run of `n` successive `sz`-byte chunk copies, both cursors advancing by
`sz` each step (`out = copy_N_bytes(out, from); from += sz;`). -/
def copyChunks (sz : Nat) (m : Mem) (out fr : Int) : Nat → Mem × Int
  | 0 => (m, out)
  | Nat.succ n => copyChunks sz (copyAtomic sz m out fr) (out + (sz : Int)) (fr + (sz : Int)) n

/-- `chunk_memcpy(out, from, len)` (`sz = 8`): one overlapping prime copy of 8
bytes, then `out += rem; from += rem` and `len / 8` further 8-byte copies — the
`switch (by8)` performs `(len / 8) % 8` of them and the 8-way unrolled `while`
loop the remaining multiple of eight. -/
def chunk_memcpy (m : Mem) (out fr : Int) (len : Nat) : Mem × Int :=
  let rem := len % 8
  let m1 := (copy_8_bytes m out fr).1
  let n := len / 8
  let by8 := n % 8
  let r1 := copyChunks 8 m1 (out + (rem : Int)) (fr + (rem : Int)) by8
  copyChunks 8 r1.1 r1.2 (fr + (rem : Int) + 8 * (by8 : Int)) (n - by8)

/-- `chunk_memcpy_16` (SSE2): the same algorithm with `sz = 16`. -/
def chunk_memcpy_16 (m : Mem) (out fr : Int) (len : Nat) : Mem × Int :=
  let rem := len % 16
  let m1 := (copy_16_bytes m out fr).1
  let n := len / 16
  let by8 := n % 8
  let r1 := copyChunks 16 m1 (out + (rem : Int)) (fr + (rem : Int)) by8
  copyChunks 16 r1.1 r1.2 (fr + (rem : Int) + 16 * (by8 : Int)) (n - by8)

/-- A run of `n` successive `MEMSET(out, c, 8); out += 8;` steps. -/
def memsetChunks (c : Nat) (m : Mem) (out : Int) : Nat → Mem × Int
  | 0 => (m, out)
  | Nat.succ n => memsetChunks c (memsetAtomic 8 m out c) (out + 8) n

/-- `byte_memset(out, len)` (release semantics, asserts compiled out): read the
fill byte from `out[-1]`, do one 8-byte prime `MEMSET`, then `out += rem` and
`len / 8` further 8-byte `MEMSET`s — `(len / 8) % 8` from the `switch (by8)`
and the rest from the 8-way unrolled `while` loop. -/
def byte_memset (m : Mem) (out : Int) (len : Nat) : Mem × Int :=
  let c := m (out - 1)
  let rem := len % 8
  let m1 := memsetAtomic 8 m out c
  let n := len / 8
  let by8 := n % 8
  let r1 := memsetChunks c m1 (out + (rem : Int)) by8
  memsetChunks c r1.1 r1.2 (n - by8)

/-- Debug-build control flow of the `switch (by8)` in `byte_memset`: the cases
7 down to 1 have no `break`, so each of them falls through into the next one
and finally into `default: assert(0)`; `by8 = 0` selects `default` directly.
Returns `true` when the `assert(0)` statement is executed. -/
def byte_memset_by8_reaches_assert0 : Nat → Bool
  | 7 => true
  | 6 => true
  | 5 => true
  | 4 => true
  | 3 => true
  | 2 => true
  | 1 => true
  | _ => true

/-- Whether a call `byte_memset(out, len)` executes the `assert(0)` in the
`default` branch of its `switch (by8)`, where `by8 = (len / 8) % 8`. -/
def byte_memset_assert0_reached (len : Nat) : Bool :=
  byte_memset_by8_reaches_assert0 ((len / 8) % 8)

/-- The `while (dist < len && dist < sz)` doubling loop of `chunk_memset`,
together with the code after it.  The C loop does not terminate when
`dist = 0` (the condition stays true and no variable changes); that case is
unreachable from `chunk_copy`, which routes `dist = 0` to `chunk_memcpy`, and
is modelled as returning the state unchanged. -/
def chunk_memset_loop (m : Mem) (out fr : Int) (dist len : Nat) : Mem × Int :=
  if _h0 : dist = 0 then (m, out)
  else if _hc : dist < len ∧ dist < 8 then
    let m1 := (copy_8_bytes m out fr).1
    if len - dist < 8 then set_bytes m1 (out + (dist : Int)) fr (dist + dist) (len - dist)
    else chunk_memset_loop m1 (out + (dist : Int)) fr (dist + dist) (len - dist)
  else chunk_memcpy m out fr len
termination_by 8 - dist
decreasing_by omega

/-- Fuel-indexed version of the same `while` loop, counting loop iterations:
`none` means the fuel ran out before the loop exited.  Used to state that the
doubling loop terminates within a fixed number of iterations. -/
def chunk_memset_loop_fuel (fuel : Nat) (m : Mem) (out fr : Int) (dist len : Nat) :
    Option (Mem × Int) :=
  if dist < len ∧ dist < 8 then
    match fuel with
    | 0 => none
    | Nat.succ f =>
      let m1 := (copy_8_bytes m out fr).1
      if len - dist < 8 then some (set_bytes m1 (out + (dist : Int)) fr (dist + dist) (len - dist))
      else chunk_memset_loop_fuel f m1 (out + (dist : Int)) fr (dist + dist) (len - dist)
  else some (chunk_memcpy m out fr len)

/-- `chunk_memset(out, from, dist, len)`: delegate to `chunk_memcpy` when
`dist >= len`, otherwise run the doubling loop. -/
def chunk_memset (m : Mem) (out fr : Int) (dist len : Nat) : Mem × Int :=
  if len ≤ dist then chunk_memcpy m out fr len
  else chunk_memset_loop m out fr dist len

/-- `chunk_copy(out, from, dist, len)`: the top-level dispatcher. -/
def chunk_copy (m : Mem) (out fr : Int) (dist len : Nat) : Mem × Int :=
  if len < 8 then
    if 0 < dist then set_bytes m out fr dist len
    else copy_bytes m out fr len
  else if dist = 1 then byte_memset m out len
  else if 0 < dist then chunk_memset m out fr dist len
  else chunk_memcpy m out fr len

/-- `fast_copy(out, from, len)` in the SSE2 build: byte dispatcher below 8,
`chunk_memcpy` below 16, `chunk_memcpy_16` from 16 up. -/
def fast_copy (m : Mem) (out fr : Int) (len : Nat) : Mem × Int :=
  if len < 8 then copy_bytes m out fr len
  else if len < 16 then chunk_memcpy m out fr len
  else chunk_memcpy_16 m out fr len

/-- The strict byte-by-byte loop of `safe_copy`:
`for (; len; --len) *out++ = *from++;` — each byte is read from the current
memory, so overlapping ranges behave exactly as the sequential loop does. -/
def safe_copy_loop (m : Mem) (out fr : Int) : Nat → Mem × Int
  | 0 => (m, out)
  | Nat.succ n =>
    safe_copy_loop (fun a => if a = out then m fr else m a) (out + 1) (fr + 1) n

/-- `safe_copy(out, from, len)` in the SSE2 build (`sz = 16`): fall back to the
byte loop when `labs(from - out) < sz`, otherwise call `fast_copy`. -/
def safe_copy (m : Mem) (out fr : Int) (len : Nat) : Mem × Int :=
  if (fr - out).natAbs < 16 then safe_copy_loop m out fr len
  else fast_copy m out fr len

/-- Specification-side reference for `safe_copy`'s aliasing contract: an
element-by-element, left-to-right byte copy (each byte read from the current
memory state). -/
def left_to_right_copy_spec (m : Mem) (out fr : Int) : Nat → Mem × Int
  | 0 => (m, out)
  | Nat.succ n =>
    left_to_right_copy_spec (fun a => if a = out then m fr else m a) (out + 1) (fr + 1) n

/-- Specification-side cyclic extension of the `dist` pattern bytes sitting
immediately before `out`: below `out` the memory is unchanged, and at
`out + i` the value is the pattern byte `m (out - dist + (i % dist))`. -/
def cyc (m : Mem) (out : Int) (dist : Nat) : Int → Nat :=
  fun a => if a < out then m a else m (out - dist + (a - out) % (dist : Int))

/-- A concrete memory used to exercise the routines at specific inputs:
address `-1` holds `0x7A` and every other address `a` holds `a.natAbs % 256`. -/
def memA : Mem := fun a => if a = -1 then 0x7A else a.natAbs % 256

/-! ### Basic frame lemmas for the write primitives -/

theorem copyAtomic_outside (k : Nat) (m : Mem) (o f : Int) :
    ∀ a : Int, a < o ∨ o + (k : Int) ≤ a → copyAtomic k m o f a = m a := by
  intro a ha
  unfold copyAtomic
  split_ifs with h
  · omega
  · rfl

theorem memsetAtomic_outside (k : Nat) (m : Mem) (o : Int) (c : Nat) :
    ∀ a : Int, a < o ∨ o + (k : Int) ≤ a → memsetAtomic k m o c a = m a := by
  intro a ha
  unfold memsetAtomic
  split_ifs with h
  · omega
  · rfl

theorem memsetAtomic_inside (k : Nat) (m : Mem) (o : Int) (c : Nat) :
    ∀ a : Int, o ≤ a → a < o + (k : Int) → memsetAtomic k m o c a = c := by
  intro a h1 h2
  unfold memsetAtomic
  rw [if_pos ⟨h1, h2⟩]

/-! ### Periodic-pattern machinery

`E` is an abstract memory snapshot that is `dist`-periodic at and above a
threshold `P` (think: the cyclic extension of the `dist` pattern bytes lying
just below `P`).  A copy of `k` bytes whose source sits exactly `D` bytes
behind its destination, with `dist ∣ D`, extends the region on which the
current memory agrees with `E`. -/

theorem E_shift (E : Int → Nat) (P : Int) (dist : Nat) (h1 : 1 ≤ dist)
    (per : ∀ a : Int, P ≤ a → E a = E (a - dist)) :
    ∀ a b : Int, P - dist ≤ b → b ≤ a → (dist : Int) ∣ (a - b) → E a = E b := by
  have key : ∀ n : Nat, ∀ a b : Int, (a - b).toNat ≤ n → P - dist ≤ b → b ≤ a →
      (dist : Int) ∣ (a - b) → E a = E b := by
    intro n
    induction n with
    | zero =>
      intro a b hn hb hba _
      have h : a = b := by omega
      rw [h]
    | succ n ih =>
      intro a b hn hb hba hdvd
      rcases eq_or_lt_of_le hba with heq | hlt
      · rw [← heq]
      · have hd : (dist : Int) ≤ a - b := Int.le_of_dvd (by omega) hdvd
        rw [per a (by omega)]
        refine ih (a - dist) b (by omega) hb (by omega) ?_
        obtain ⟨c, hc⟩ := hdvd
        refine ⟨c - 1, ?_⟩
        rw [mul_sub, mul_one, ← hc]
        ring
  intro a b hb hba hdvd
  exact key (a - b).toNat a b le_rfl hb hba hdvd

theorem agrees_copyAtomic (E : Int → Nat) (P : Int) (dist : Nat) (h1 : 1 ≤ dist)
    (per : ∀ a : Int, P ≤ a → E a = E (a - dist))
    (m : Mem) (o f : Int) (k D : Nat)
    (hof : o = f + (D : Int)) (hdvd : dist ∣ D) (hfP : P - dist ≤ f)
    (hag : ∀ a : Int, a < o → m a = E a) :
    ∀ a : Int, a < o + ((min k D : Nat) : Int) → copyAtomic k m o f a = E a := by
  have hmin1 : ((min k D : Nat) : Int) ≤ (k : Int) := by exact_mod_cast Nat.min_le_left k D
  have hmin2 : ((min k D : Nat) : Int) ≤ (D : Int) := by exact_mod_cast Nat.min_le_right k D
  intro a ha
  unfold copyAtomic
  split_ifs with h
  · have hread : f + (a - o) < o := by omega
    rw [hag _ hread]
    refine (E_shift E P dist h1 per a (f + (a - o)) (by omega) (by omega) ?_).symm
    have h2 : a - (f + (a - o)) = (D : Int) := by omega
    rw [h2]
    exact Int.natCast_dvd_natCast.mpr hdvd
  · refine hag a ?_
    rcases not_and_or.mp h with h' | h'
    · omega
    · omega

theorem agrees_copyAtomic_le (E : Int → Nat) (P : Int) (dist : Nat) (h1 : 1 ≤ dist)
    (per : ∀ a : Int, P ≤ a → E a = E (a - dist))
    (m : Mem) (o f : Int) (k D : Nat)
    (hof : o = f + (D : Int)) (hdvd : dist ∣ D) (hfP : P - dist ≤ f)
    (hkD : k ≤ D)
    (hag : ∀ a : Int, a < o → m a = E a) :
    ∀ a : Int, a < o + (k : Int) → copyAtomic k m o f a = E a := by
  intro a ha
  refine agrees_copyAtomic E P dist h1 per m o f k D hof hdvd hfP hag a ?_
  have h : min k D = k := Nat.min_eq_left hkD
  rw [h]
  exact ha

theorem agrees_copy_1 (E : Int → Nat) (P : Int) (dist : Nat) (h1 : 1 ≤ dist)
    (per : ∀ a : Int, P ≤ a → E a = E (a - dist))
    (m : Mem) (o f : Int) (D : Nat)
    (hof : o = f + (D : Int)) (hdvd : dist ∣ D) (hfP : P - dist ≤ f) (hkD : 1 ≤ D)
    (hag : ∀ a : Int, a < o → m a = E a) :
    (copy_1_bytes m o f).2 = o + 1 ∧
    (∀ a : Int, a < o + 1 → (copy_1_bytes m o f).1 a = E a) ∧
    (∀ a : Int, a < o ∨ o + 1 ≤ a → (copy_1_bytes m o f).1 a = m a) := by
  refine ⟨rfl, ?_, ?_⟩
  · intro a ha
    exact agrees_copyAtomic_le E P dist h1 per m o f 1 D hof hdvd hfP hkD hag a (by push_cast; omega)
  · intro a ha
    exact copyAtomic_outside 1 m o f a (by push_cast; omega)

theorem agrees_copy_2 (E : Int → Nat) (P : Int) (dist : Nat) (h1 : 1 ≤ dist)
    (per : ∀ a : Int, P ≤ a → E a = E (a - dist))
    (m : Mem) (o f : Int) (D : Nat)
    (hof : o = f + (D : Int)) (hdvd : dist ∣ D) (hfP : P - dist ≤ f) (hkD : 2 ≤ D)
    (hag : ∀ a : Int, a < o → m a = E a) :
    (copy_2_bytes m o f).2 = o + 2 ∧
    (∀ a : Int, a < o + 2 → (copy_2_bytes m o f).1 a = E a) ∧
    (∀ a : Int, a < o ∨ o + 2 ≤ a → (copy_2_bytes m o f).1 a = m a) := by
  refine ⟨rfl, ?_, ?_⟩
  · intro a ha
    exact agrees_copyAtomic_le E P dist h1 per m o f 2 D hof hdvd hfP hkD hag a (by push_cast; omega)
  · intro a ha
    exact copyAtomic_outside 2 m o f a (by push_cast; omega)

theorem agrees_copy_4 (E : Int → Nat) (P : Int) (dist : Nat) (h1 : 1 ≤ dist)
    (per : ∀ a : Int, P ≤ a → E a = E (a - dist))
    (m : Mem) (o f : Int) (D : Nat)
    (hof : o = f + (D : Int)) (hdvd : dist ∣ D) (hfP : P - dist ≤ f) (hkD : 4 ≤ D)
    (hag : ∀ a : Int, a < o → m a = E a) :
    (copy_4_bytes m o f).2 = o + 4 ∧
    (∀ a : Int, a < o + 4 → (copy_4_bytes m o f).1 a = E a) ∧
    (∀ a : Int, a < o ∨ o + 4 ≤ a → (copy_4_bytes m o f).1 a = m a) := by
  refine ⟨rfl, ?_, ?_⟩
  · intro a ha
    exact agrees_copyAtomic_le E P dist h1 per m o f 4 D hof hdvd hfP hkD hag a (by push_cast; omega)
  · intro a ha
    exact copyAtomic_outside 4 m o f a (by push_cast; omega)

theorem agrees_copy_8 (E : Int → Nat) (P : Int) (dist : Nat) (h1 : 1 ≤ dist)
    (per : ∀ a : Int, P ≤ a → E a = E (a - dist))
    (m : Mem) (o f : Int) (D : Nat)
    (hof : o = f + (D : Int)) (hdvd : dist ∣ D) (hfP : P - dist ≤ f) (hkD : 8 ≤ D)
    (hag : ∀ a : Int, a < o → m a = E a) :
    (copy_8_bytes m o f).2 = o + 8 ∧
    (∀ a : Int, a < o + 8 → (copy_8_bytes m o f).1 a = E a) ∧
    (∀ a : Int, a < o ∨ o + 8 ≤ a → (copy_8_bytes m o f).1 a = m a) := by
  refine ⟨rfl, ?_, ?_⟩
  · intro a ha
    exact agrees_copyAtomic_le E P dist h1 per m o f 8 D hof hdvd hfP hkD hag a (by push_cast; omega)
  · intro a ha
    exact copyAtomic_outside 8 m o f a (by push_cast; omega)

theorem agrees_copy_3 (E : Int → Nat) (P : Int) (dist : Nat) (h1 : 1 ≤ dist)
    (per : ∀ a : Int, P ≤ a → E a = E (a - dist))
    (m : Mem) (o f : Int) (D : Nat)
    (hof : o = f + (D : Int)) (hdvd : dist ∣ D) (hfP : P - dist ≤ f) (hkD : 3 ≤ D)
    (hag : ∀ a : Int, a < o → m a = E a) :
    (copy_3_bytes m o f).2 = o + 3 ∧
    (∀ a : Int, a < o + 3 → (copy_3_bytes m o f).1 a = E a) ∧
    (∀ a : Int, a < o ∨ o + 3 ≤ a → (copy_3_bytes m o f).1 a = m a) := by
  obtain ⟨c1, g1, f1⟩ :=
    agrees_copy_1 E P dist h1 per m o f D hof hdvd hfP (by omega) hag
  obtain ⟨c2, g2, f2⟩ :=
    agrees_copy_2 E P dist h1 per (copy_1_bytes m o f).1 (o + 1) (f + 1) D
      (by omega) hdvd (by omega) (by omega)
      (by intro a ha; exact g1 a ha)
  refine ⟨?_, ?_, ?_⟩
  · show (copy_2_bytes (copy_1_bytes m o f).1 (copy_1_bytes m o f).2 (f + 1)).2 = o + 3
    rw [show (copy_1_bytes m o f).2 = o + 1 from rfl]
    rw [c2]
    ring
  · intro a ha
    show (copy_2_bytes (copy_1_bytes m o f).1 (copy_1_bytes m o f).2 (f + 1)).1 a = E a
    rw [show (copy_1_bytes m o f).2 = o + 1 from rfl]
    exact g2 a (by omega)
  · intro a ha
    show (copy_2_bytes (copy_1_bytes m o f).1 (copy_1_bytes m o f).2 (f + 1)).1 a = m a
    rw [show (copy_1_bytes m o f).2 = o + 1 from rfl]
    rw [f2 a (by omega)]
    exact f1 a (by omega)

theorem agrees_copy_5 (E : Int → Nat) (P : Int) (dist : Nat) (h1 : 1 ≤ dist)
    (per : ∀ a : Int, P ≤ a → E a = E (a - dist))
    (m : Mem) (o f : Int) (D : Nat)
    (hof : o = f + (D : Int)) (hdvd : dist ∣ D) (hfP : P - dist ≤ f) (hkD : 5 ≤ D)
    (hag : ∀ a : Int, a < o → m a = E a) :
    (copy_5_bytes m o f).2 = o + 5 ∧
    (∀ a : Int, a < o + 5 → (copy_5_bytes m o f).1 a = E a) ∧
    (∀ a : Int, a < o ∨ o + 5 ≤ a → (copy_5_bytes m o f).1 a = m a) := by
  obtain ⟨c1, g1, f1⟩ :=
    agrees_copy_1 E P dist h1 per m o f D hof hdvd hfP (by omega) hag
  obtain ⟨c2, g2, f2⟩ :=
    agrees_copy_4 E P dist h1 per (copy_1_bytes m o f).1 (o + 1) (f + 1) D
      (by omega) hdvd (by omega) (by omega)
      (by intro a ha; exact g1 a ha)
  refine ⟨?_, ?_, ?_⟩
  · show (copy_4_bytes (copy_1_bytes m o f).1 (copy_1_bytes m o f).2 (f + 1)).2 = o + 5
    rw [show (copy_1_bytes m o f).2 = o + 1 from rfl]
    rw [c2]
    ring
  · intro a ha
    show (copy_4_bytes (copy_1_bytes m o f).1 (copy_1_bytes m o f).2 (f + 1)).1 a = E a
    rw [show (copy_1_bytes m o f).2 = o + 1 from rfl]
    exact g2 a (by omega)
  · intro a ha
    show (copy_4_bytes (copy_1_bytes m o f).1 (copy_1_bytes m o f).2 (f + 1)).1 a = m a
    rw [show (copy_1_bytes m o f).2 = o + 1 from rfl]
    rw [f2 a (by omega)]
    exact f1 a (by omega)

theorem agrees_copy_6 (E : Int → Nat) (P : Int) (dist : Nat) (h1 : 1 ≤ dist)
    (per : ∀ a : Int, P ≤ a → E a = E (a - dist))
    (m : Mem) (o f : Int) (D : Nat)
    (hof : o = f + (D : Int)) (hdvd : dist ∣ D) (hfP : P - dist ≤ f) (hkD : 6 ≤ D)
    (hag : ∀ a : Int, a < o → m a = E a) :
    (copy_6_bytes m o f).2 = o + 6 ∧
    (∀ a : Int, a < o + 6 → (copy_6_bytes m o f).1 a = E a) ∧
    (∀ a : Int, a < o ∨ o + 6 ≤ a → (copy_6_bytes m o f).1 a = m a) := by
  obtain ⟨c1, g1, f1⟩ :=
    agrees_copy_2 E P dist h1 per m o f D hof hdvd hfP (by omega) hag
  obtain ⟨c2, g2, f2⟩ :=
    agrees_copy_4 E P dist h1 per (copy_2_bytes m o f).1 (o + 2) (f + 2) D
      (by omega) hdvd (by omega) (by omega)
      (by intro a ha; exact g1 a ha)
  refine ⟨?_, ?_, ?_⟩
  · show (copy_4_bytes (copy_2_bytes m o f).1 (copy_2_bytes m o f).2 (f + 2)).2 = o + 6
    rw [show (copy_2_bytes m o f).2 = o + 2 from rfl]
    rw [c2]
    ring
  · intro a ha
    show (copy_4_bytes (copy_2_bytes m o f).1 (copy_2_bytes m o f).2 (f + 2)).1 a = E a
    rw [show (copy_2_bytes m o f).2 = o + 2 from rfl]
    exact g2 a (by omega)
  · intro a ha
    show (copy_4_bytes (copy_2_bytes m o f).1 (copy_2_bytes m o f).2 (f + 2)).1 a = m a
    rw [show (copy_2_bytes m o f).2 = o + 2 from rfl]
    rw [f2 a (by omega)]
    exact f1 a (by omega)

theorem agrees_copy_7 (E : Int → Nat) (P : Int) (dist : Nat) (h1 : 1 ≤ dist)
    (per : ∀ a : Int, P ≤ a → E a = E (a - dist))
    (m : Mem) (o f : Int) (D : Nat)
    (hof : o = f + (D : Int)) (hdvd : dist ∣ D) (hfP : P - dist ≤ f) (hkD : 7 ≤ D)
    (hag : ∀ a : Int, a < o → m a = E a) :
    (copy_7_bytes m o f).2 = o + 7 ∧
    (∀ a : Int, a < o + 7 → (copy_7_bytes m o f).1 a = E a) ∧
    (∀ a : Int, a < o ∨ o + 7 ≤ a → (copy_7_bytes m o f).1 a = m a) := by
  obtain ⟨c1, g1, f1⟩ :=
    agrees_copy_3 E P dist h1 per m o f D hof hdvd hfP (by omega) hag
  obtain ⟨c2, g2, f2⟩ :=
    agrees_copy_4 E P dist h1 per (copy_3_bytes m o f).1 (o + 3) (f + 3) D
      (by omega) hdvd (by omega) (by omega)
      (by intro a ha; exact g1 a (by omega))
  have hc3 : (copy_3_bytes m o f).2 = o + 3 := c1
  refine ⟨?_, ?_, ?_⟩
  · show (copy_4_bytes (copy_3_bytes m o f).1 (copy_3_bytes m o f).2 (f + 3)).2 = o + 7
    rw [hc3, c2]
    ring
  · intro a ha
    show (copy_4_bytes (copy_3_bytes m o f).1 (copy_3_bytes m o f).2 (f + 3)).1 a = E a
    rw [hc3]
    exact g2 a (by omega)
  · intro a ha
    show (copy_4_bytes (copy_3_bytes m o f).1 (copy_3_bytes m o f).2 (f + 3)).1 a = m a
    rw [hc3]
    rw [f2 a (by omega)]
    exact f1 a (by omega)

theorem agrees_copy_bytes (E : Int → Nat) (P : Int) (dist : Nat) (h1 : 1 ≤ dist)
    (per : ∀ a : Int, P ≤ a → E a = E (a - dist))
    (m : Mem) (o f : Int) (D : Nat)
    (hof : o = f + (D : Int)) (hdvd : dist ∣ D) (hfP : P - dist ≤ f)
    (len : Nat) (hlen : len < 8) (hkD : len ≤ D)
    (hag : ∀ a : Int, a < o → m a = E a) :
    (copy_bytes m o f len).2 = o + (len : Int) ∧
    (∀ a : Int, a < o + (len : Int) → (copy_bytes m o f len).1 a = E a) ∧
    (∀ a : Int, a < o ∨ o + (len : Int) ≤ a → (copy_bytes m o f len).1 a = m a) := by
  interval_cases len
  · exact ⟨by simp [copy_bytes], by intro a ha; simp [copy_bytes]; exact hag a (by omega),
      by intro a ha; simp [copy_bytes]⟩
  · simpa [copy_bytes] using
      agrees_copy_1 E P dist h1 per m o f D hof hdvd hfP (by omega) hag
  · simpa [copy_bytes] using
      agrees_copy_2 E P dist h1 per m o f D hof hdvd hfP (by omega) hag
  · simpa [copy_bytes] using
      agrees_copy_3 E P dist h1 per m o f D hof hdvd hfP (by omega) hag
  · simpa [copy_bytes] using
      agrees_copy_4 E P dist h1 per m o f D hof hdvd hfP (by omega) hag
  · simpa [copy_bytes] using
      agrees_copy_5 E P dist h1 per m o f D hof hdvd hfP (by omega) hag
  · simpa [copy_bytes] using
      agrees_copy_6 E P dist h1 per m o f D hof hdvd hfP (by omega) hag
  · simpa [copy_bytes] using
      agrees_copy_7 E P dist h1 per m o f D hof hdvd hfP (by omega) hag

theorem agrees_memset1 (E : Int → Nat) (out : Int)
    (per : ∀ a : Int, out ≤ a → E a = E (a - 1))
    (m : Mem) (hag : ∀ a : Int, a < out → m a = E a) (k : Nat) :
    ∀ a : Int, a < out + (k : Int) → memsetAtomic k m out (m (out - 1)) a = E a := by
  intro a ha
  unfold memsetAtomic
  split_ifs with h
  · rw [hag (out - 1) (by omega)]
    refine (E_shift E out 1 le_rfl ?_ a (out - 1) (by omega) (by omega) (by norm_num)).symm
    intro b hb
    simpa using per b hb
  · exact hag a (by rcases not_and_or.mp h with h' | h' <;> omega)

theorem agrees_set_bytes_dist1 (E : Int → Nat) (out : Int)
    (per : ∀ a : Int, out ≤ a → E a = E (a - 1))
    (m : Mem) (hag : ∀ a : Int, a < out → m a = E a)
    (len : Nat) (h2 : 2 ≤ len) (h7 : len ≤ 7) :
    (set_bytes_dist1 m out (out - 1) len).2 = out + (len : Int) ∧
    (∀ a : Int, a < out + (len : Int) → (set_bytes_dist1 m out (out - 1) len).1 a = E a) ∧
    (∀ a : Int, a < out ∨ out + (len : Int) ≤ a → (set_bytes_dist1 m out (out - 1) len).1 a = m a) := by
  interval_cases len <;>
    refine ⟨by simp [set_bytes_dist1], ?_, ?_⟩ <;> intro a ha <;> simp only [set_bytes_dist1] <;>
    norm_num
  all_goals try exact agrees_memset1 E out per m hag _ a (by push_cast; omega)
  all_goals exact memsetAtomic_outside _ m out _ a (by push_cast; omega)

theorem agrees_set_bytes_dist2 (E : Int → Nat) (out : Int)
    (per : ∀ a : Int, out ≤ a → E a = E (a - 2))
    (m : Mem) (hag : ∀ a : Int, a < out → m a = E a)
    (len : Nat) (h3 : 3 ≤ len) (h7 : len ≤ 7) :
    (set_bytes_dist2 m out (out - 2) len).2 = out + (len : Int) ∧
    (∀ a : Int, a < out + (len : Int) → (set_bytes_dist2 m out (out - 2) len).1 a = E a) ∧
    (∀ a : Int, a < out ∨ out + (len : Int) ≤ a →
      (set_bytes_dist2 m out (out - 2) len).1 a = m a) := by
  have per' : ∀ a : Int, out ≤ a → E a = E (a - ((2 : Nat) : Int)) := by
    intro a ha
    simpa using per a ha
  obtain ⟨c1, g1, f1⟩ :=
    agrees_copy_2 E out 2 (by norm_num) per' m out (out - 2) 2
      (by push_cast; ring) (by norm_num) (by push_cast; omega) (by norm_num) hag
  have hc2 : (copy_2_bytes m out (out - 2)).2 = out + 2 := rfl
  interval_cases len
  · -- len = 3 : copy_2 then copy_1
    obtain ⟨c2, g2, f2⟩ :=
      agrees_copy_1 E out 2 (by norm_num) per' (copy_2_bytes m out (out - 2)).1
        (out + 2) (out - 2) 4 (by push_cast; ring) (by norm_num) (by push_cast; omega)
        (by norm_num) (fun a ha => g1 a ha)
    refine ⟨?_, ?_, ?_⟩
    · show (copy_1_bytes (copy_2_bytes m out (out - 2)).1
        (copy_2_bytes m out (out - 2)).2 (out - 2)).2 = out + ((3 : Nat) : Int)
      rw [hc2, c2]
      push_cast
      ring
    · intro a ha
      show (copy_1_bytes (copy_2_bytes m out (out - 2)).1
        (copy_2_bytes m out (out - 2)).2 (out - 2)).1 a = E a
      rw [hc2]
      exact g2 a (by push_cast at ha; omega)
    · intro a ha
      show (copy_1_bytes (copy_2_bytes m out (out - 2)).1
        (copy_2_bytes m out (out - 2)).2 (out - 2)).1 a = m a
      rw [hc2, f2 a (by push_cast at ha; omega)]
      exact f1 a (by push_cast at ha; omega)
  · -- len = 4 : copy_2 then copy_2
    obtain ⟨c2, g2, f2⟩ :=
      agrees_copy_2 E out 2 (by norm_num) per' (copy_2_bytes m out (out - 2)).1
        (out + 2) (out - 2) 4 (by push_cast; ring) (by norm_num) (by push_cast; omega)
        (by norm_num) (fun a ha => g1 a ha)
    refine ⟨?_, ?_, ?_⟩
    · show (copy_2_bytes (copy_2_bytes m out (out - 2)).1
        (copy_2_bytes m out (out - 2)).2 (out - 2)).2 = out + ((4 : Nat) : Int)
      rw [hc2, c2]
      push_cast
      ring
    · intro a ha
      show (copy_2_bytes (copy_2_bytes m out (out - 2)).1
        (copy_2_bytes m out (out - 2)).2 (out - 2)).1 a = E a
      rw [hc2]
      exact g2 a (by push_cast at ha; omega)
    · intro a ha
      show (copy_2_bytes (copy_2_bytes m out (out - 2)).1
        (copy_2_bytes m out (out - 2)).2 (out - 2)).1 a = m a
      rw [hc2, f2 a (by push_cast at ha; omega)]
      exact f1 a (by push_cast at ha; omega)
  · -- len = 5 : copy_2 then copy_2 then copy_1
    obtain ⟨c2, g2, f2⟩ :=
      agrees_copy_2 E out 2 (by norm_num) per' (copy_2_bytes m out (out - 2)).1
        (out + 2) (out - 2) 4 (by push_cast; ring) (by norm_num) (by push_cast; omega)
        (by norm_num) (fun a ha => g1 a ha)
    obtain ⟨c3, g3, f3⟩ :=
      agrees_copy_1 E out 2 (by norm_num) per'
        (copy_2_bytes (copy_2_bytes m out (out - 2)).1 (out + 2) (out - 2)).1
        (out + 4) (out - 2) 6 (by push_cast; ring) (by norm_num) (by push_cast; omega)
        (by norm_num) (fun a ha => g2 a (by omega))
    have hc2b : (copy_2_bytes (copy_2_bytes m out (out - 2)).1 (out + 2) (out - 2)).2 = out + 4 := by
      rw [c2]; ring
    refine ⟨?_, ?_, ?_⟩
    · show (copy_1_bytes
        (copy_2_bytes (copy_2_bytes m out (out - 2)).1 (copy_2_bytes m out (out - 2)).2 (out - 2)).1
        (copy_2_bytes (copy_2_bytes m out (out - 2)).1 (copy_2_bytes m out (out - 2)).2 (out - 2)).2
        (out - 2)).2 = out + ((5 : Nat) : Int)
      rw [hc2, hc2b, c3]
      push_cast
      ring
    · intro a ha
      show (copy_1_bytes
        (copy_2_bytes (copy_2_bytes m out (out - 2)).1 (copy_2_bytes m out (out - 2)).2 (out - 2)).1
        (copy_2_bytes (copy_2_bytes m out (out - 2)).1 (copy_2_bytes m out (out - 2)).2 (out - 2)).2
        (out - 2)).1 a = E a
      rw [hc2, hc2b]
      exact g3 a (by push_cast at ha; omega)
    · intro a ha
      show (copy_1_bytes
        (copy_2_bytes (copy_2_bytes m out (out - 2)).1 (copy_2_bytes m out (out - 2)).2 (out - 2)).1
        (copy_2_bytes (copy_2_bytes m out (out - 2)).1 (copy_2_bytes m out (out - 2)).2 (out - 2)).2
        (out - 2)).1 a = m a
      rw [hc2, hc2b, f3 a (by push_cast at ha; omega), f2 a (by push_cast at ha; omega)]
      exact f1 a (by push_cast at ha; omega)
  · -- len = 6 : copy_2 then copy_4
    obtain ⟨c2, g2, f2⟩ :=
      agrees_copy_4 E out 2 (by norm_num) per' (copy_2_bytes m out (out - 2)).1
        (out + 2) (out - 2) 4 (by push_cast; ring) (by norm_num) (by push_cast; omega)
        (by norm_num) (fun a ha => g1 a ha)
    refine ⟨?_, ?_, ?_⟩
    · show (copy_4_bytes (copy_2_bytes m out (out - 2)).1
        (copy_2_bytes m out (out - 2)).2 (out - 2)).2 = out + ((6 : Nat) : Int)
      rw [hc2, c2]
      push_cast
      ring
    · intro a ha
      show (copy_4_bytes (copy_2_bytes m out (out - 2)).1
        (copy_2_bytes m out (out - 2)).2 (out - 2)).1 a = E a
      rw [hc2]
      exact g2 a (by push_cast at ha; omega)
    · intro a ha
      show (copy_4_bytes (copy_2_bytes m out (out - 2)).1
        (copy_2_bytes m out (out - 2)).2 (out - 2)).1 a = m a
      rw [hc2, f2 a (by push_cast at ha; omega)]
      exact f1 a (by push_cast at ha; omega)
  · -- len = 7 : copy_2 then copy_4 then copy_1
    obtain ⟨c2, g2, f2⟩ :=
      agrees_copy_4 E out 2 (by norm_num) per' (copy_2_bytes m out (out - 2)).1
        (out + 2) (out - 2) 4 (by push_cast; ring) (by norm_num) (by push_cast; omega)
        (by norm_num) (fun a ha => g1 a ha)
    obtain ⟨c3, g3, f3⟩ :=
      agrees_copy_1 E out 2 (by norm_num) per'
        (copy_4_bytes (copy_2_bytes m out (out - 2)).1 (out + 2) (out - 2)).1
        (out + 6) (out - 2) 8 (by push_cast; ring) (by norm_num) (by push_cast; omega)
        (by norm_num) (fun a ha => g2 a (by omega))
    have hc2b : (copy_4_bytes (copy_2_bytes m out (out - 2)).1 (out + 2) (out - 2)).2 = out + 6 := by
      rw [c2]; ring
    refine ⟨?_, ?_, ?_⟩
    · show (copy_1_bytes
        (copy_4_bytes (copy_2_bytes m out (out - 2)).1 (copy_2_bytes m out (out - 2)).2 (out - 2)).1
        (copy_4_bytes (copy_2_bytes m out (out - 2)).1 (copy_2_bytes m out (out - 2)).2 (out - 2)).2
        (out - 2)).2 = out + ((7 : Nat) : Int)
      rw [hc2, hc2b, c3]
      push_cast
      ring
    · intro a ha
      show (copy_1_bytes
        (copy_4_bytes (copy_2_bytes m out (out - 2)).1 (copy_2_bytes m out (out - 2)).2 (out - 2)).1
        (copy_4_bytes (copy_2_bytes m out (out - 2)).1 (copy_2_bytes m out (out - 2)).2 (out - 2)).2
        (out - 2)).1 a = E a
      rw [hc2, hc2b]
      exact g3 a (by push_cast at ha; omega)
    · intro a ha
      show (copy_1_bytes
        (copy_4_bytes (copy_2_bytes m out (out - 2)).1 (copy_2_bytes m out (out - 2)).2 (out - 2)).1
        (copy_4_bytes (copy_2_bytes m out (out - 2)).1 (copy_2_bytes m out (out - 2)).2 (out - 2)).2
        (out - 2)).1 a = m a
      rw [hc2, hc2b, f3 a (by push_cast at ha; omega), f2 a (by push_cast at ha; omega)]
      exact f1 a (by push_cast at ha; omega)

theorem agrees_set_bytes (E : Int → Nat) (m : Mem) (out : Int) (dist len : Nat)
    (h1 : 1 ≤ dist) (hlen : len < 8)
    (per : ∀ a : Int, out ≤ a → E a = E (a - dist))
    (hag : ∀ a : Int, a < out → m a = E a) :
    (set_bytes m out (out - dist) dist len).2 = out + (len : Int) ∧
    (∀ a : Int, a < out + (len : Int) → (set_bytes m out (out - dist) dist len).1 a = E a) ∧
    (∀ a : Int, a < out ∨ out + (len : Int) ≤ a →
      (set_bytes m out (out - dist) dist len).1 a = m a) := by
  by_cases hld : len ≤ dist
  · have h := agrees_copy_bytes E out dist h1 per m out (out - dist) dist
      (by ring) dvd_rfl (by omega) len hlen hld hag
    simpa [set_bytes, hld] using h
  · push_neg at hld
    have hd : dist ≤ 6 := by omega
    interval_cases dist
    · -- dist = 1 : MEMSET path
      have h := agrees_set_bytes_dist1 E out (by intro a ha; simpa using per a ha) m hag len
        (by omega) (by omega)
      simpa [set_bytes, show ¬(len ≤ 1) by omega] using h
    · -- dist = 2 : set_bytes_dist2 path
      have h := agrees_set_bytes_dist2 E out (by intro a ha; simpa using per a ha) m hag len
        (by omega) (by omega)
      simpa [set_bytes, show ¬(len ≤ 2) by omega] using h
    · -- dist = 3 : copy_3 then a width depending on len
      have per' : ∀ a : Int, out ≤ a → E a = E (a - ((3 : Nat) : Int)) := by
        intro a ha
        simpa using per a ha
      obtain ⟨c1, g1, f1⟩ :=
        agrees_copy_3 E out 3 (by norm_num) per' m out (out - 3) 3
          (by push_cast; ring) (by norm_num) (by push_cast; omega) (by norm_num) hag
      have hc3 : (copy_3_bytes m out (out - 3)).2 = out + 3 := c1
      have hlen4 : 4 ≤ len := by omega
      interval_cases len
      · -- len = 4 : second step copy_1
        obtain ⟨c2, g2, f2⟩ :=
          agrees_copy_1 E out 3 (by norm_num) per' (copy_3_bytes m out (out - 3)).1
            (out + 3) (out - 3) 6 (by push_cast; ring) (by norm_num) (by push_cast; omega)
            (by norm_num) (fun a ha => g1 a ha)
        refine ⟨?_, ?_, ?_⟩
        · show (copy_1_bytes (copy_3_bytes m out (out - ((3 : Nat) : Int))).1
            (copy_3_bytes m out (out - ((3 : Nat) : Int))).2 (out - ((3 : Nat) : Int))).2 =
              out + ((4 : Nat) : Int)
          push_cast
          rw [hc3, c2]
          ring
        · intro a ha
          show (copy_1_bytes (copy_3_bytes m out (out - ((3 : Nat) : Int))).1
            (copy_3_bytes m out (out - ((3 : Nat) : Int))).2 (out - ((3 : Nat) : Int))).1 a = E a
          push_cast
          rw [hc3]
          exact g2 a (by push_cast at ha; omega)
        · intro a ha
          show (copy_1_bytes (copy_3_bytes m out (out - ((3 : Nat) : Int))).1
            (copy_3_bytes m out (out - ((3 : Nat) : Int))).2 (out - ((3 : Nat) : Int))).1 a = m a
          push_cast
          rw [hc3, f2 a (by push_cast at ha; omega)]
          exact f1 a (by push_cast at ha; omega)
      · -- len = 5 : second step copy_2
        obtain ⟨c2, g2, f2⟩ :=
          agrees_copy_2 E out 3 (by norm_num) per' (copy_3_bytes m out (out - 3)).1
            (out + 3) (out - 3) 6 (by push_cast; ring) (by norm_num) (by push_cast; omega)
            (by norm_num) (fun a ha => g1 a ha)
        refine ⟨?_, ?_, ?_⟩
        · show (copy_2_bytes (copy_3_bytes m out (out - ((3 : Nat) : Int))).1
            (copy_3_bytes m out (out - ((3 : Nat) : Int))).2 (out - ((3 : Nat) : Int))).2 =
              out + ((5 : Nat) : Int)
          push_cast
          rw [hc3, c2]
          ring
        · intro a ha
          show (copy_2_bytes (copy_3_bytes m out (out - ((3 : Nat) : Int))).1
            (copy_3_bytes m out (out - ((3 : Nat) : Int))).2 (out - ((3 : Nat) : Int))).1 a = E a
          push_cast
          rw [hc3]
          exact g2 a (by push_cast at ha; omega)
        · intro a ha
          show (copy_2_bytes (copy_3_bytes m out (out - ((3 : Nat) : Int))).1
            (copy_3_bytes m out (out - ((3 : Nat) : Int))).2 (out - ((3 : Nat) : Int))).1 a = m a
          push_cast
          rw [hc3, f2 a (by push_cast at ha; omega)]
          exact f1 a (by push_cast at ha; omega)
      · -- len = 6 : second step copy_3
        obtain ⟨c2, g2, f2⟩ :=
          agrees_copy_3 E out 3 (by norm_num) per' (copy_3_bytes m out (out - 3)).1
            (out + 3) (out - 3) 6 (by push_cast; ring) (by norm_num) (by push_cast; omega)
            (by norm_num) (fun a ha => g1 a ha)
        refine ⟨?_, ?_, ?_⟩
        · show (copy_3_bytes (copy_3_bytes m out (out - ((3 : Nat) : Int))).1
            (copy_3_bytes m out (out - ((3 : Nat) : Int))).2 (out - ((3 : Nat) : Int))).2 =
              out + ((6 : Nat) : Int)
          push_cast
          rw [hc3, c2]
          ring
        · intro a ha
          show (copy_3_bytes (copy_3_bytes m out (out - ((3 : Nat) : Int))).1
            (copy_3_bytes m out (out - ((3 : Nat) : Int))).2 (out - ((3 : Nat) : Int))).1 a = E a
          push_cast
          rw [hc3]
          exact g2 a (by push_cast at ha; omega)
        · intro a ha
          show (copy_3_bytes (copy_3_bytes m out (out - ((3 : Nat) : Int))).1
            (copy_3_bytes m out (out - ((3 : Nat) : Int))).2 (out - ((3 : Nat) : Int))).1 a = m a
          push_cast
          rw [hc3, f2 a (by push_cast at ha; omega)]
          exact f1 a (by push_cast at ha; omega)
      · -- len = 7 : second step copy_4
        obtain ⟨c2, g2, f2⟩ :=
          agrees_copy_4 E out 3 (by norm_num) per' (copy_3_bytes m out (out - 3)).1
            (out + 3) (out - 3) 6 (by push_cast; ring) (by norm_num) (by push_cast; omega)
            (by norm_num) (fun a ha => g1 a ha)
        refine ⟨?_, ?_, ?_⟩
        · show (copy_4_bytes (copy_3_bytes m out (out - ((3 : Nat) : Int))).1
            (copy_3_bytes m out (out - ((3 : Nat) : Int))).2 (out - ((3 : Nat) : Int))).2 =
              out + ((7 : Nat) : Int)
          push_cast
          rw [hc3, c2]
          ring
        · intro a ha
          show (copy_4_bytes (copy_3_bytes m out (out - ((3 : Nat) : Int))).1
            (copy_3_bytes m out (out - ((3 : Nat) : Int))).2 (out - ((3 : Nat) : Int))).1 a = E a
          push_cast
          rw [hc3]
          exact g2 a (by push_cast at ha; omega)
        · intro a ha
          show (copy_4_bytes (copy_3_bytes m out (out - ((3 : Nat) : Int))).1
            (copy_3_bytes m out (out - ((3 : Nat) : Int))).2 (out - ((3 : Nat) : Int))).1 a = m a
          push_cast
          rw [hc3, f2 a (by push_cast at ha; omega)]
          exact f1 a (by push_cast at ha; omega)
    · -- dist = 4 : copy_4 then copy_bytes (len - 4)
      have per' : ∀ a : Int, out ≤ a → E a = E (a - ((4 : Nat) : Int)) := by
        intro a ha
        simpa using per a ha
      obtain ⟨c1, g1, f1⟩ :=
        agrees_copy_4 E out 4 (by norm_num) per' m out (out - 4) 4
          (by push_cast; ring) (by norm_num) (by push_cast; omega) (by norm_num) hag
      have hc4 : (copy_4_bytes m out (out - 4)).2 = out + 4 := c1
      obtain ⟨c2, g2, f2⟩ :=
        agrees_copy_bytes E out 4 (by norm_num) per' (copy_4_bytes m out (out - 4)).1
          (out + 4) (out - 4) 8 (by push_cast; ring) (by norm_num) (by push_cast; omega)
          (len - 4) (by omega) (by omega) (fun a ha => g1 a ha)
      have hred : set_bytes m out (out - ((4 : Nat) : Int)) 4 len =
          copy_bytes (copy_4_bytes m out (out - 4)).1
            (copy_4_bytes m out (out - 4)).2 (out - 4) (len - 4) := by
        simp [set_bytes, show ¬(len ≤ 4) by omega]
      rw [hred, hc4]
      refine ⟨?_, ?_, ?_⟩
      · rw [c2]
        omega
      · intro a ha
        exact g2 a (by omega)
      · intro a ha
        rw [f2 a (by omega)]
        exact f1 a (by omega)
    · -- dist = 5 : copy_5 then copy_bytes (len - 5)
      have per' : ∀ a : Int, out ≤ a → E a = E (a - ((5 : Nat) : Int)) := by
        intro a ha
        simpa using per a ha
      obtain ⟨c1, g1, f1⟩ :=
        agrees_copy_5 E out 5 (by norm_num) per' m out (out - 5) 5
          (by push_cast; ring) (by norm_num) (by push_cast; omega) (by norm_num) hag
      have hc5 : (copy_5_bytes m out (out - 5)).2 = out + 5 := c1
      obtain ⟨c2, g2, f2⟩ :=
        agrees_copy_bytes E out 5 (by norm_num) per' (copy_5_bytes m out (out - 5)).1
          (out + 5) (out - 5) 10 (by push_cast; ring) (by norm_num) (by push_cast; omega)
          (len - 5) (by omega) (by omega) (fun a ha => g1 a ha)
      have hred : set_bytes m out (out - ((5 : Nat) : Int)) 5 len =
          copy_bytes (copy_5_bytes m out (out - 5)).1
            (copy_5_bytes m out (out - 5)).2 (out - 5) (len - 5) := by
        simp [set_bytes, show ¬(len ≤ 5) by omega]
      rw [hred, hc5]
      refine ⟨?_, ?_, ?_⟩
      · rw [c2]
        omega
      · intro a ha
        exact g2 a (by omega)
      · intro a ha
        rw [f2 a (by omega)]
        exact f1 a (by omega)
    · -- dist = 6 : copy_6 then copy_1 (len must be 7)
      have per' : ∀ a : Int, out ≤ a → E a = E (a - ((6 : Nat) : Int)) := by
        intro a ha
        simpa using per a ha
      obtain ⟨c1, g1, f1⟩ :=
        agrees_copy_6 E out 6 (by norm_num) per' m out (out - 6) 6
          (by push_cast; ring) (by norm_num) (by push_cast; omega) (by norm_num) hag
      have hc6 : (copy_6_bytes m out (out - 6)).2 = out + 6 := c1
      obtain ⟨c2, g2, f2⟩ :=
        agrees_copy_1 E out 6 (by norm_num) per' (copy_6_bytes m out (out - 6)).1
          (out + 6) (out - 6) 12 (by push_cast; ring) (by norm_num) (by push_cast; omega)
          (by norm_num) (fun a ha => g1 a ha)
      interval_cases len
      refine ⟨?_, ?_, ?_⟩
      · show (copy_1_bytes (copy_6_bytes m out (out - ((6 : Nat) : Int))).1
          (copy_6_bytes m out (out - ((6 : Nat) : Int))).2 (out - ((6 : Nat) : Int))).2 =
            out + ((7 : Nat) : Int)
        push_cast
        rw [hc6, c2]
        ring
      · intro a ha
        show (copy_1_bytes (copy_6_bytes m out (out - ((6 : Nat) : Int))).1
          (copy_6_bytes m out (out - ((6 : Nat) : Int))).2 (out - ((6 : Nat) : Int))).1 a = E a
        push_cast
        rw [hc6]
        exact g2 a (by push_cast at ha; omega)
      · intro a ha
        show (copy_1_bytes (copy_6_bytes m out (out - ((6 : Nat) : Int))).1
          (copy_6_bytes m out (out - ((6 : Nat) : Int))).2 (out - ((6 : Nat) : Int))).1 a = m a
        push_cast
        rw [hc6, f2 a (by push_cast at ha; omega)]
        exact f1 a (by push_cast at ha; omega)

/-! ### Chunk loop lemmas -/

theorem copyChunks_append (sz : Nat) : ∀ (a b : Nat) (m : Mem) (o f : Int),
    copyChunks sz m o f (a + b) =
      copyChunks sz (copyChunks sz m o f a).1 (copyChunks sz m o f a).2
        (f + (sz : Int) * (a : Int)) b := by
  intro a
  induction a with
  | zero =>
    intro b m o f
    simp [copyChunks]
  | succ n ih =>
    intro b m o f
    have h : n + 1 + b = (n + b) + 1 := by omega
    rw [h]
    show copyChunks sz (copyAtomic sz m o f) (o + (sz : Int)) (f + (sz : Int)) (n + b) = _
    rw [ih b (copyAtomic sz m o f) (o + (sz : Int)) (f + (sz : Int))]
    rw [show copyChunks sz m o f (n + 1) =
      copyChunks sz (copyAtomic sz m o f) (o + (sz : Int)) (f + (sz : Int)) n from rfl]
    congr 1
    push_cast
    ring

theorem copyChunks8_cursor : ∀ (n : Nat) (m : Mem) (o f : Int),
    (copyChunks 8 m o f n).2 = o + 8 * (n : Int) := by
  intro n
  induction n with
  | zero =>
    intro m o f
    simp [copyChunks]
  | succ k ih =>
    intro m o f
    show (copyChunks 8 (copyAtomic 8 m o f) (o + ((8 : Nat) : Int)) (f + ((8 : Nat) : Int)) k).2 = _
    rw [ih]
    push_cast
    ring

theorem copyChunks16_cursor : ∀ (n : Nat) (m : Mem) (o f : Int),
    (copyChunks 16 m o f n).2 = o + 16 * (n : Int) := by
  intro n
  induction n with
  | zero =>
    intro m o f
    simp [copyChunks]
  | succ k ih =>
    intro m o f
    show (copyChunks 16 (copyAtomic 16 m o f) (o + ((16 : Nat) : Int)) (f + ((16 : Nat) : Int)) k).2 = _
    rw [ih]
    push_cast
    ring

theorem copyChunks8_outside : ∀ (n : Nat) (m : Mem) (o f : Int) (a : Int),
    a < o ∨ o + 8 * (n : Int) ≤ a → (copyChunks 8 m o f n).1 a = m a := by
  intro n
  induction n with
  | zero =>
    intro m o f a _
    rfl
  | succ k ih =>
    intro m o f a ha
    show (copyChunks 8 (copyAtomic 8 m o f) (o + ((8 : Nat) : Int)) (f + ((8 : Nat) : Int)) k).1 a = m a
    rw [ih _ _ _ a (by push_cast at ha ⊢; omega)]
    exact copyAtomic_outside 8 m o f a (by push_cast at ha ⊢; omega)

theorem copyChunks16_outside : ∀ (n : Nat) (m : Mem) (o f : Int) (a : Int),
    a < o ∨ o + 16 * (n : Int) ≤ a → (copyChunks 16 m o f n).1 a = m a := by
  intro n
  induction n with
  | zero =>
    intro m o f a _
    rfl
  | succ k ih =>
    intro m o f a ha
    show (copyChunks 16 (copyAtomic 16 m o f) (o + ((16 : Nat) : Int)) (f + ((16 : Nat) : Int)) k).1 a = m a
    rw [ih _ _ _ a (by push_cast at ha ⊢; omega)]
    exact copyAtomic_outside 16 m o f a (by push_cast at ha ⊢; omega)

theorem copyChunks8_agrees (E : Int → Nat) (P : Int) (dist : Nat) (h1 : 1 ≤ dist)
    (per : ∀ a : Int, P ≤ a → E a = E (a - dist)) (D : Nat) (hdvd : dist ∣ D) (hD : 8 ≤ D) :
    ∀ (n : Nat) (m : Mem) (o f : Int), o = f + (D : Int) → P - dist ≤ f →
      (∀ a : Int, a < o → m a = E a) →
      ∀ a : Int, a < o + 8 * (n : Int) → (copyChunks 8 m o f n).1 a = E a := by
  intro n
  induction n with
  | zero =>
    intro m o f hof hfP hag a ha
    exact hag a (by omega)
  | succ k ih =>
    intro m o f hof hfP hag a ha
    show (copyChunks 8 (copyAtomic 8 m o f) (o + ((8 : Nat) : Int)) (f + ((8 : Nat) : Int)) k).1 a = E a
    refine ih (copyAtomic 8 m o f) (o + ((8 : Nat) : Int)) (f + ((8 : Nat) : Int))
      (by push_cast; omega) (by push_cast; omega) ?_ a (by push_cast at ha ⊢; omega)
    intro b hb
    exact agrees_copyAtomic_le E P dist h1 per m o f 8 D hof hdvd hfP hD hag b
      (by push_cast at hb ⊢; omega)

theorem copyChunks8_plain : ∀ (n : Nat) (m : Mem) (o f : Int),
    (o + 8 * (n : Int) ≤ f ∨ f + 8 * (n : Int) ≤ o) →
    ∀ a : Int, (copyChunks 8 m o f n).1 a =
      if o ≤ a ∧ a < o + 8 * (n : Int) then m (f + (a - o)) else m a := by
  intro n
  induction n with
  | zero =>
    intro m o f _ a
    split_ifs with h
    · omega
    · rfl
  | succ k ih =>
    intro m o f hdisj a
    show (copyChunks 8 (copyAtomic 8 m o f) (o + ((8 : Nat) : Int)) (f + ((8 : Nat) : Int)) k).1 a = _
    rw [ih (copyAtomic 8 m o f) (o + ((8 : Nat) : Int)) (f + ((8 : Nat) : Int))
      (by push_cast at hdisj ⊢; omega) a]
    push_cast at hdisj ⊢
    split_ifs with h2 h1 h1
    · -- written by the tail chunks: the source byte is untouched by the head chunk
      rw [show f + 8 + (a - (o + 8)) = f + (a - o) by ring]
      exact copyAtomic_outside 8 m o f (f + (a - o)) (by omega)
    · omega
    · -- inside the head chunk
      unfold copyAtomic
      rw [if_pos ⟨by omega, by omega⟩]
    · -- outside everything
      exact copyAtomic_outside 8 m o f a (by omega)

theorem chunk_memcpy_eq (m : Mem) (o f : Int) (len : Nat) :
    chunk_memcpy m o f len =
      copyChunks 8 (copyAtomic 8 m o f) (o + ((len % 8 : Nat) : Int))
        (f + ((len % 8 : Nat) : Int)) (len / 8) := by
  simp only [chunk_memcpy, copy_8_bytes]
  conv_rhs => rw [show len / 8 = len / 8 % 8 + (len / 8 - len / 8 % 8) by omega]
  rw [copyChunks_append 8]
  norm_num

theorem chunk_memcpy_16_eq (m : Mem) (o f : Int) (len : Nat) :
    chunk_memcpy_16 m o f len =
      copyChunks 16 (copyAtomic 16 m o f) (o + ((len % 16 : Nat) : Int))
        (f + ((len % 16 : Nat) : Int)) (len / 16) := by
  simp only [chunk_memcpy_16, copy_16_bytes]
  conv_rhs => rw [show len / 16 = len / 16 % 8 + (len / 16 - len / 16 % 8) by omega]
  rw [copyChunks_append 16]
  norm_num

theorem chunk_memcpy_frame (m : Mem) (o f : Int) (len : Nat) (h8 : 8 ≤ len) :
    (chunk_memcpy m o f len).2 = o + (len : Int) ∧
    (∀ a : Int, a < o ∨ o + (len : Int) ≤ a → (chunk_memcpy m o f len).1 a = m a) := by
  rw [chunk_memcpy_eq]
  constructor
  · rw [copyChunks8_cursor]
    push_cast
    omega
  · intro a ha
    rw [copyChunks8_outside _ _ _ _ a (by push_cast; omega)]
    exact copyAtomic_outside 8 m o f a (by push_cast; omega)

theorem chunk_memcpy_16_frame (m : Mem) (o f : Int) (len : Nat) (h16 : 16 ≤ len) :
    (chunk_memcpy_16 m o f len).2 = o + (len : Int) ∧
    (∀ a : Int, a < o ∨ o + (len : Int) ≤ a → (chunk_memcpy_16 m o f len).1 a = m a) := by
  rw [chunk_memcpy_16_eq]
  constructor
  · rw [copyChunks16_cursor]
    push_cast
    omega
  · intro a ha
    rw [copyChunks16_outside _ _ _ _ a (by push_cast; omega)]
    exact copyAtomic_outside 16 m o f a (by push_cast; omega)

theorem chunk_memcpy_agrees (E : Int → Nat) (P : Int) (dist : Nat) (h1 : 1 ≤ dist)
    (per : ∀ a : Int, P ≤ a → E a = E (a - dist))
    (m : Mem) (o f : Int) (D : Nat)
    (hof : o = f + (D : Int)) (hdvd : dist ∣ D) (hD : 8 ≤ D) (hfP : P - dist ≤ f)
    (len : Nat)
    (hag : ∀ a : Int, a < o → m a = E a) :
    ∀ a : Int, a < o + (len : Int) → (chunk_memcpy m o f len).1 a = E a := by
  intro a ha
  rw [chunk_memcpy_eq]
  refine copyChunks8_agrees E P dist h1 per D hdvd hD (len / 8) (copyAtomic 8 m o f)
    (o + ((len % 8 : Nat) : Int)) (f + ((len % 8 : Nat) : Int))
    (by push_cast; omega) (by push_cast; omega) ?_ a (by push_cast; omega)
  intro b hb
  exact agrees_copyAtomic_le E P dist h1 per m o f 8 D hof hdvd hfP hD hag b
    (by push_cast at hb ⊢; omega)

theorem chunk_memcpy_plain (m : Mem) (o f : Int) (len : Nat) (h8 : 8 ≤ len)
    (hdisj : o + (len : Int) ≤ f ∨ f + (len : Int) ≤ o) :
    ∀ a : Int, (chunk_memcpy m o f len).1 a =
      if o ≤ a ∧ a < o + (len : Int) then m (f + (a - o)) else m a := by
  intro a
  rw [chunk_memcpy_eq]
  rw [copyChunks8_plain (len / 8) (copyAtomic 8 m o f) (o + ((len % 8 : Nat) : Int))
    (f + ((len % 8 : Nat) : Int)) (by push_cast; omega) a]
  push_cast
  split_ifs with h2 h1 h1
  · rw [show f + (len % 8 : Int) + (a - (o + (len % 8 : Int))) = f + (a - o) by ring]
    rw [copyAtomic_outside 8 m o f (f + (a - o)) (by omega)]
  · omega
  · unfold copyAtomic
    rw [if_pos ⟨by omega, by push_cast; omega⟩]
  · exact copyAtomic_outside 8 m o f a (by omega)

theorem memsetChunks_cursor : ∀ (n : Nat) (c : Nat) (m : Mem) (o : Int),
    (memsetChunks c m o n).2 = o + 8 * (n : Int) := by
  intro n
  induction n with
  | zero =>
    intro c m o
    simp [memsetChunks]
  | succ k ih =>
    intro c m o
    show (memsetChunks c (memsetAtomic 8 m o c) (o + 8) k).2 = _
    rw [ih]
    push_cast
    ring

theorem memsetChunks_spec : ∀ (n : Nat) (c : Nat) (m : Mem) (o : Int) (a : Int),
    (memsetChunks c m o n).1 a = if o ≤ a ∧ a < o + 8 * (n : Int) then c else m a := by
  intro n
  induction n with
  | zero =>
    intro c m o a
    show m a = _
    split_ifs with h
    · omega
    · rfl
  | succ k ih =>
    intro c m o a
    show (memsetChunks c (memsetAtomic 8 m o c) (o + 8) k).1 a = _
    rw [ih]
    unfold memsetAtomic
    push_cast
    split_ifs <;> first | rfl | omega

theorem memsetChunks_append : ∀ (x y : Nat) (c : Nat) (m : Mem) (o : Int),
    memsetChunks c m o (x + y) =
      memsetChunks c (memsetChunks c m o x).1 (memsetChunks c m o x).2 y := by
  intro x
  induction x with
  | zero =>
    intro y c m o
    simp [memsetChunks]
  | succ k ih =>
    intro y c m o
    have h : k + 1 + y = (k + y) + 1 := by omega
    rw [h]
    show memsetChunks c (memsetAtomic 8 m o c) (o + 8) (k + y) = _
    rw [ih y c (memsetAtomic 8 m o c) (o + 8)]
    rfl

theorem byte_memset_eq (m : Mem) (o : Int) (len : Nat) :
    byte_memset m o len =
      memsetChunks (m (o - 1)) (memsetAtomic 8 m o (m (o - 1)))
        (o + ((len % 8 : Nat) : Int)) (len / 8) := by
  simp only [byte_memset]
  conv_rhs => rw [show len / 8 = len / 8 % 8 + (len / 8 - len / 8 % 8) by omega]
  rw [memsetChunks_append]

theorem byte_memset_spec (m : Mem) (o : Int) (len : Nat) (h8 : 8 ≤ len) :
    (byte_memset m o len).2 = o + (len : Int) ∧
    (∀ i : Nat, i < len → (byte_memset m o len).1 (o + (i : Int)) = m (o - 1)) ∧
    (∀ a : Int, a < o ∨ o + (len : Int) ≤ a → (byte_memset m o len).1 a = m a) := by
  rw [byte_memset_eq]
  refine ⟨?_, ?_, ?_⟩
  · rw [memsetChunks_cursor]
    push_cast
    omega
  · intro i hi
    rw [memsetChunks_spec]
    push_cast
    split_ifs with h
    · rfl
    · exact memsetAtomic_inside 8 m o (m (o - 1)) (o + (i : Int)) (by omega) (by push_cast; omega)
  · intro a ha
    rw [memsetChunks_spec]
    push_cast
    rw [if_neg (by omega)]
    exact memsetAtomic_outside 8 m o (m (o - 1)) a (by push_cast; omega)

theorem chunk_memset_loop_agrees (E : Int → Nat) :
    ∀ (n : Nat) (dist : Nat) (m : Mem) (out : Int) (len : Nat),
      8 - dist ≤ n → 1 ≤ dist → 8 ≤ len →
      (∀ a : Int, out ≤ a → E a = E (a - dist)) →
      (∀ a : Int, a < out → m a = E a) →
      (chunk_memset_loop m out (out - (dist : Int)) dist len).2 = out + (len : Int) ∧
      (∀ a : Int, a < out + (len : Int) →
        (chunk_memset_loop m out (out - (dist : Int)) dist len).1 a = E a) ∧
      (∀ a : Int, a < out ∨ out + (len : Int) ≤ a →
        (chunk_memset_loop m out (out - (dist : Int)) dist len).1 a = m a) := by
  intro n
  induction n with
  | zero =>
    intro dist m out len hn h1 h8 per hag
    have hD : 8 ≤ dist := by omega
    rw [chunk_memset_loop]
    rw [dif_neg (by omega : ¬dist = 0), dif_neg (by omega : ¬(dist < len ∧ dist < 8))]
    obtain ⟨hc, hf⟩ := chunk_memcpy_frame m out (out - (dist : Int)) len h8
    refine ⟨hc, ?_, hf⟩
    exact chunk_memcpy_agrees E out dist h1 per m out (out - (dist : Int)) dist
      (by ring) dvd_rfl hD (by omega) len hag
  | succ n ih =>
    intro dist m out len hn h1 h8 per hag
    rw [chunk_memset_loop]
    rw [dif_neg (by omega : ¬dist = 0)]
    by_cases hcond : dist < len ∧ dist < 8
    · rw [dif_pos hcond]
      have hg1 : ∀ a : Int, a < out + (dist : Int) →
          (copy_8_bytes m out (out - (dist : Int))).1 a = E a := by
        intro a ha
        have h := agrees_copyAtomic E out dist h1 per m out (out - (dist : Int)) 8 dist
          (by ring) dvd_rfl (by omega) hag a
        rw [Nat.min_eq_right (le_of_lt hcond.2)] at h
        exact h ha
      have hf1 : ∀ a : Int, a < out ∨ out + 8 ≤ a →
          (copy_8_bytes m out (out - (dist : Int))).1 a = m a := by
        intro a ha
        exact copyAtomic_outside 8 m out (out - (dist : Int)) a (by push_cast; omega)
      have per' : ∀ a : Int, out + (dist : Int) ≤ a → E a = E (a - ((dist + dist : Nat) : Int)) := by
        intro a ha
        rw [per a (by omega), per (a - (dist : Int)) (by omega)]
        congr 1
        push_cast
        ring
      have hfr : (out : Int) - (dist : Int) = (out + (dist : Int)) - ((dist + dist : Nat) : Int) := by
        push_cast
        ring
      by_cases hlt : len - dist < 8
      · rw [if_pos hlt]
        obtain ⟨cs, gs, fs⟩ := agrees_set_bytes E (copy_8_bytes m out (out - (dist : Int))).1
          (out + (dist : Int)) (dist + dist) (len - dist) (by omega) (by omega) per'
          (fun a ha => hg1 a ha)
        rw [← hfr] at cs gs fs
        refine ⟨?_, ?_, ?_⟩
        · rw [cs]
          omega
        · intro a ha
          exact gs a (by omega)
        · intro a ha
          rw [fs a (by omega)]
          exact hf1 a (by omega)
      · rw [if_neg hlt]
        obtain ⟨cr, gr, fr2⟩ := ih (dist + dist) (copy_8_bytes m out (out - (dist : Int))).1
          (out + (dist : Int)) (len - dist) (by omega) (by omega) (by omega) per'
          (fun a ha => hg1 a ha)
        rw [← hfr] at cr gr fr2
        refine ⟨?_, ?_, ?_⟩
        · rw [cr]
          omega
        · intro a ha
          exact gr a (by omega)
        · intro a ha
          rw [fr2 a (by omega)]
          exact hf1 a (by omega)
    · rw [dif_neg hcond]
      have hD : 8 ≤ dist := by
        rcases not_and_or.mp hcond with h' | h' <;> omega
      obtain ⟨hc, hf⟩ := chunk_memcpy_frame m out (out - (dist : Int)) len h8
      refine ⟨hc, ?_, hf⟩
      exact chunk_memcpy_agrees E out dist h1 per m out (out - (dist : Int)) dist
        (by ring) dvd_rfl hD (by omega) len hag

/-! ### The cyclic pattern extension -/

theorem cyc_below (m : Mem) (out : Int) (dist : Nat) :
    ∀ a : Int, a < out → cyc m out dist a = m a := by
  intro a ha
  unfold cyc
  rw [if_pos ha]

theorem cyc_per (m : Mem) (out : Int) (dist : Nat) (_h1 : 1 ≤ dist) :
    ∀ a : Int, out ≤ a → cyc m out dist a = cyc m out dist (a - dist) := by
  intro a ha
  unfold cyc
  rw [if_neg (by omega)]
  by_cases h : a - (dist : Int) < out
  · rw [if_pos h]
    congr 1
    have h0 : (0 : Int) ≤ a - out := by omega
    have hlt : a - out < (dist : Int) := by omega
    rw [Int.emod_eq_of_lt h0 hlt]
    ring
  · rw [if_neg h]
    congr 1
    rw [show a - (dist : Int) - out = (a - out) - (dist : Int) by ring]
    simp [Int.sub_emod]

theorem cyc_at (m : Mem) (out : Int) (dist : Nat) :
    ∀ i : Nat, cyc m out dist (out + (i : Int)) = m (out - dist + ((i % dist : Nat) : Int)) := by
  intro i
  unfold cyc
  rw [if_neg (by omega)]
  congr 2
  rw [show out + (i : Int) - out = (i : Int) by ring]
  push_cast
  rfl

/-- Full pattern-replication correctness of `chunk_memset` in the bulk regime
`1 ≤ dist < len`, `8 ≤ len`, with the pattern sitting at `out - dist`. -/
theorem chunk_memset_pattern (m : Mem) (out : Int) (dist len : Nat)
    (h1 : 1 ≤ dist) (hdl : dist < len) (h8 : 8 ≤ len) :
    (chunk_memset m out (out - (dist : Int)) dist len).2 = out + (len : Int) ∧
    (∀ i : Nat, i < len →
      (chunk_memset m out (out - (dist : Int)) dist len).1 (out + (i : Int)) =
        m (out - dist + ((i % dist : Nat) : Int))) ∧
    (∀ a : Int, a < out ∨ out + (len : Int) ≤ a →
      (chunk_memset m out (out - (dist : Int)) dist len).1 a = m a) := by
  unfold chunk_memset
  rw [if_neg (by omega : ¬len ≤ dist)]
  obtain ⟨hc, hg, hf⟩ := chunk_memset_loop_agrees (cyc m out dist) 8 dist m out len
    (by omega) h1 h8 (cyc_per m out dist h1)
    (fun a ha => (cyc_below m out dist a ha).symm)
  refine ⟨hc, ?_, hf⟩
  intro i hi
  rw [hg (out + (i : Int)) (by omega), cyc_at m out dist i]

/-- Pattern-replication correctness of `chunk_memset` in the short regime
`dist ≤ len < 8` (the regime the spec's §8 pattern property quantifies over):
the first `len` output bytes are the cyclic pattern and the cursor advances by
`len`.  (For `len < 8` the prime copy writes past `out + len`; this lemma says
nothing about those slack bytes.) -/
theorem chunk_memset_pattern_small (m : Mem) (out : Int) (dist len : Nat)
    (h1 : 1 ≤ dist) (hdl : dist ≤ len) (hlen : len < 8) :
    (chunk_memset m out (out - (dist : Int)) dist len).2 = out + (len : Int) ∧
    (∀ i : Nat, i < len →
      (chunk_memset m out (out - (dist : Int)) dist len).1 (out + (i : Int)) =
        m (out - dist + ((i % dist : Nat) : Int))) := by
  unfold chunk_memset
  by_cases heq : len ≤ dist
  · -- here dist = len: `chunk_memcpy` does one prime copy and no chunks
    rw [if_pos heq]
    rw [chunk_memcpy_eq]
    have hn : len / 8 = 0 := by omega
    have hr : len % 8 = len := by omega
    rw [hn, hr]
    constructor
    · rfl
    · intro i hi
      show copyAtomic 8 m out (out - (dist : Int)) (out + (i : Int)) = _
      unfold copyAtomic
      rw [if_pos ⟨by omega, by push_cast; omega⟩]
      congr 1
      have him : i % dist = i := Nat.mod_eq_of_lt (by omega)
      rw [him]
      ring
  · -- here dist < len < 8: the loop body runs once and finishes via set_bytes
    rw [if_neg heq]
    rw [chunk_memset_loop]
    rw [dif_neg (by omega : ¬dist = 0), dif_pos (⟨by omega, by omega⟩ : dist < len ∧ dist < 8),
      if_pos (by omega : len - dist < 8)]
    have hg1 : ∀ a : Int, a < out + (dist : Int) →
        (copy_8_bytes m out (out - (dist : Int))).1 a = cyc m out dist a := by
      intro a ha
      have h := agrees_copyAtomic (cyc m out dist) out dist h1 (cyc_per m out dist h1) m out
        (out - (dist : Int)) 8 dist (by ring) dvd_rfl (by omega)
        (fun a ha => (cyc_below m out dist a ha).symm) a
      rw [Nat.min_eq_right (by omega : dist ≤ 8)] at h
      exact h ha
    have per' : ∀ a : Int, out + (dist : Int) ≤ a →
        cyc m out dist a = cyc m out dist (a - ((dist + dist : Nat) : Int)) := by
      intro a ha
      rw [cyc_per m out dist h1 a (by omega), cyc_per m out dist h1 (a - (dist : Int)) (by omega)]
      congr 1
      push_cast
      ring
    have hfr : (out : Int) - (dist : Int) = (out + (dist : Int)) - ((dist + dist : Nat) : Int) := by
      push_cast
      ring
    obtain ⟨cs, gs, fs⟩ := agrees_set_bytes (cyc m out dist)
      (copy_8_bytes m out (out - (dist : Int))).1 (out + (dist : Int)) (dist + dist) (len - dist)
      (by omega) (by omega) per' (fun a ha => hg1 a ha)
    rw [← hfr] at cs gs fs
    constructor
    · rw [cs]
      omega
    · intro i hi
      rw [gs (out + (i : Int)) (by omega), cyc_at m out dist i]

/-! ### Frame lemmas: writes stay within the logical destination window -/

theorem copy_1_frame (m : Mem) (o f : Int) :
    (copy_1_bytes m o f).2 = o + 1 ∧
    (∀ a : Int, a < o ∨ o + 1 ≤ a → (copy_1_bytes m o f).1 a = m a) :=
  ⟨rfl, fun a ha => copyAtomic_outside 1 m o f a (by push_cast; omega)⟩

theorem copy_2_frame (m : Mem) (o f : Int) :
    (copy_2_bytes m o f).2 = o + 2 ∧
    (∀ a : Int, a < o ∨ o + 2 ≤ a → (copy_2_bytes m o f).1 a = m a) :=
  ⟨rfl, fun a ha => copyAtomic_outside 2 m o f a (by push_cast; omega)⟩

theorem copy_4_frame (m : Mem) (o f : Int) :
    (copy_4_bytes m o f).2 = o + 4 ∧
    (∀ a : Int, a < o ∨ o + 4 ≤ a → (copy_4_bytes m o f).1 a = m a) :=
  ⟨rfl, fun a ha => copyAtomic_outside 4 m o f a (by push_cast; omega)⟩

theorem copy_8_frame (m : Mem) (o f : Int) :
    (copy_8_bytes m o f).2 = o + 8 ∧
    (∀ a : Int, a < o ∨ o + 8 ≤ a → (copy_8_bytes m o f).1 a = m a) :=
  ⟨rfl, fun a ha => copyAtomic_outside 8 m o f a (by push_cast; omega)⟩

theorem copy_16_frame (m : Mem) (o f : Int) :
    (copy_16_bytes m o f).2 = o + 16 ∧
    (∀ a : Int, a < o ∨ o + 16 ≤ a → (copy_16_bytes m o f).1 a = m a) :=
  ⟨rfl, fun a ha => copyAtomic_outside 16 m o f a (by push_cast; omega)⟩

theorem copy_3_frame (m : Mem) (o f : Int) :
    (copy_3_bytes m o f).2 = o + 3 ∧
    (∀ a : Int, a < o ∨ o + 3 ≤ a → (copy_3_bytes m o f).1 a = m a) := by
  constructor
  · show o + 1 + 2 = o + 3
    ring
  · intro a ha
    show copyAtomic 2 (copyAtomic 1 m o f) (o + 1) (f + 1) a = m a
    rw [copyAtomic_outside 2 _ _ _ a (by push_cast; omega)]
    exact copyAtomic_outside 1 m o f a (by push_cast; omega)

theorem copy_5_frame (m : Mem) (o f : Int) :
    (copy_5_bytes m o f).2 = o + 5 ∧
    (∀ a : Int, a < o ∨ o + 5 ≤ a → (copy_5_bytes m o f).1 a = m a) := by
  constructor
  · show o + 1 + 4 = o + 5
    ring
  · intro a ha
    show copyAtomic 4 (copyAtomic 1 m o f) (o + 1) (f + 1) a = m a
    rw [copyAtomic_outside 4 _ _ _ a (by push_cast; omega)]
    exact copyAtomic_outside 1 m o f a (by push_cast; omega)

theorem copy_6_frame (m : Mem) (o f : Int) :
    (copy_6_bytes m o f).2 = o + 6 ∧
    (∀ a : Int, a < o ∨ o + 6 ≤ a → (copy_6_bytes m o f).1 a = m a) := by
  constructor
  · show o + 2 + 4 = o + 6
    ring
  · intro a ha
    show copyAtomic 4 (copyAtomic 2 m o f) (o + 2) (f + 2) a = m a
    rw [copyAtomic_outside 4 _ _ _ a (by push_cast; omega)]
    exact copyAtomic_outside 2 m o f a (by push_cast; omega)

theorem copy_7_frame (m : Mem) (o f : Int) :
    (copy_7_bytes m o f).2 = o + 7 ∧
    (∀ a : Int, a < o ∨ o + 7 ≤ a → (copy_7_bytes m o f).1 a = m a) := by
  constructor
  · show o + 1 + 2 + 4 = o + 7
    ring
  · intro a ha
    show copyAtomic 4 (copyAtomic 2 (copyAtomic 1 m o f) (o + 1) (f + 1)) (o + 1 + 2) (f + 3) a = m a
    rw [copyAtomic_outside 4 _ _ _ a (by push_cast; omega)]
    rw [copyAtomic_outside 2 _ _ _ a (by push_cast; omega)]
    exact copyAtomic_outside 1 m o f a (by push_cast; omega)

theorem copy_bytes_frame (m : Mem) (o f : Int) (len : Nat) (hlen : len < 8) :
    (copy_bytes m o f len).2 = o + (len : Int) ∧
    (∀ a : Int, a < o ∨ o + (len : Int) ≤ a → (copy_bytes m o f len).1 a = m a) := by
  interval_cases len
  · exact ⟨by simp [copy_bytes], by intro a ha; simp [copy_bytes]⟩
  · simpa [copy_bytes] using copy_1_frame m o f
  · simpa [copy_bytes] using copy_2_frame m o f
  · simpa [copy_bytes] using copy_3_frame m o f
  · simpa [copy_bytes] using copy_4_frame m o f
  · simpa [copy_bytes] using copy_5_frame m o f
  · simpa [copy_bytes] using copy_6_frame m o f
  · simpa [copy_bytes] using copy_7_frame m o f

/-- Frame property of `set_bytes` under its documented precondition (pattern
immediately before the cursor): only `[out, out + len)` is written and the
cursor advances by exactly `len`. -/
theorem set_bytes_frame (m : Mem) (out : Int) (dist len : Nat)
    (h1 : 1 ≤ dist) (hlen : len < 8) :
    (set_bytes m out (out - (dist : Int)) dist len).2 = out + (len : Int) ∧
    (∀ a : Int, a < out ∨ out + (len : Int) ≤ a →
      (set_bytes m out (out - (dist : Int)) dist len).1 a = m a) := by
  obtain ⟨hc, _, hf⟩ := agrees_set_bytes (cyc m out dist) m out dist len h1 hlen
    (cyc_per m out dist h1) (fun a ha => (cyc_below m out dist a ha).symm)
  exact ⟨hc, hf⟩

/-- Frame property of `chunk_memset` under its documented preconditions. -/
theorem chunk_memset_frame (m : Mem) (out : Int) (dist len : Nat)
    (h1 : 1 ≤ dist) (h8 : 8 ≤ len) :
    (chunk_memset m out (out - (dist : Int)) dist len).2 = out + (len : Int) ∧
    (∀ a : Int, a < out ∨ out + (len : Int) ≤ a →
      (chunk_memset m out (out - (dist : Int)) dist len).1 a = m a) := by
  unfold chunk_memset
  by_cases hld : len ≤ dist
  · rw [if_pos hld]
    exact chunk_memcpy_frame m out (out - (dist : Int)) len h8
  · rw [if_neg hld]
    obtain ⟨hc, _, hf⟩ := chunk_memset_loop_agrees (cyc m out dist) 8 dist m out len
      (by omega) h1 h8 (cyc_per m out dist h1)
      (fun a ha => (cyc_below m out dist a ha).symm)
    exact ⟨hc, hf⟩

/-- Frame property of `chunk_copy`: whenever a positive `dist` comes with the
documented `from = out - dist` relation, the dispatcher writes only inside
`[out, out + len)` and returns `out + len`. -/
theorem chunk_copy_frame (m : Mem) (out fr : Int) (dist len : Nat)
    (hfr : 0 < dist → fr = out - (dist : Int)) :
    (chunk_copy m out fr dist len).2 = out + (len : Int) ∧
    (∀ a : Int, a < out ∨ out + (len : Int) ≤ a → (chunk_copy m out fr dist len).1 a = m a) := by
  unfold chunk_copy
  by_cases hl : len < 8
  · rw [if_pos hl]
    by_cases hd : 0 < dist
    · rw [if_pos hd, hfr hd]
      exact set_bytes_frame m out dist len hd hl
    · rw [if_neg hd]
      exact copy_bytes_frame m out fr len hl
  · rw [if_neg hl]
    by_cases hd1 : dist = 1
    · rw [if_pos hd1]
      exact byte_memset_spec m out len (by omega) |>.imp id (fun h => h.2)
    · rw [if_neg hd1]
      by_cases hd : 0 < dist
      · rw [if_pos hd, hfr hd]
        exact chunk_memset_frame m out dist len hd (by omega)
      · rw [if_neg hd]
        exact chunk_memcpy_frame m out fr len (by omega)

theorem fast_copy_frame (m : Mem) (out fr : Int) (len : Nat) :
    (fast_copy m out fr len).2 = out + (len : Int) ∧
    (∀ a : Int, a < out ∨ out + (len : Int) ≤ a → (fast_copy m out fr len).1 a = m a) := by
  unfold fast_copy
  by_cases h8 : len < 8
  · rw [if_pos h8]
    exact copy_bytes_frame m out fr len h8
  · rw [if_neg h8]
    by_cases h16 : len < 16
    · rw [if_pos h16]
      exact chunk_memcpy_frame m out fr len (by omega)
    · rw [if_neg h16]
      exact chunk_memcpy_16_frame m out fr len (by omega)

theorem safe_copy_loop_frame : ∀ (len : Nat) (m : Mem) (out fr : Int),
    (safe_copy_loop m out fr len).2 = out + (len : Int) ∧
    (∀ a : Int, a < out ∨ out + (len : Int) ≤ a → (safe_copy_loop m out fr len).1 a = m a) := by
  intro len
  induction len with
  | zero =>
    intro m out fr
    exact ⟨by simp [safe_copy_loop], by intro a ha; rfl⟩
  | succ k ih =>
    intro m out fr
    constructor
    · show (safe_copy_loop _ (out + 1) (fr + 1) k).2 = _
      rw [(ih _ (out + 1) (fr + 1)).1]
      push_cast
      ring
    · intro a ha
      show (safe_copy_loop _ (out + 1) (fr + 1) k).1 a = m a
      rw [(ih _ (out + 1) (fr + 1)).2 a (by push_cast at ha ⊢; omega)]
      show (if a = out then m fr else m a) = m a
      rw [if_neg (by omega : ¬a = out)]

theorem safe_copy_frame (m : Mem) (out fr : Int) (len : Nat) :
    (safe_copy m out fr len).2 = out + (len : Int) ∧
    (∀ a : Int, a < out ∨ out + (len : Int) ≤ a → (safe_copy m out fr len).1 a = m a) := by
  unfold safe_copy
  split_ifs with h
  · exact safe_copy_loop_frame len m out fr
  · exact fast_copy_frame m out fr len

theorem copy_bytes_plain (m : Mem) (o f : Int) (len : Nat) (hlen : len < 8)
    (hdisj : o + (len : Int) ≤ f ∨ f + (len : Int) ≤ o) :
    ∀ a : Int, (copy_bytes m o f len).1 a =
      if o ≤ a ∧ a < o + (len : Int) then m (f + (a - o)) else m a := by
  intro a
  interval_cases len <;>
    simp only [copy_bytes, copy_1_bytes, copy_2_bytes, copy_3_bytes, copy_4_bytes,
      copy_5_bytes, copy_6_bytes, copy_7_bytes, copyAtomic, Nat.reduceEqDiff,
      reduceIte] <;>
    push_cast at hdisj ⊢ <;>
    split_ifs <;>
    first
      | rfl
      | (exact congrArg m (by omega))

theorem safe_copy_loop_eq_spec : ∀ (len : Nat) (m : Mem) (out fr : Int),
    safe_copy_loop m out fr len = left_to_right_copy_spec m out fr len := by
  intro len
  induction len with
  | zero =>
    intro m out fr
    rfl
  | succ k ih =>
    intro m out fr
    show safe_copy_loop _ (out + 1) (fr + 1) k = left_to_right_copy_spec _ (out + 1) (fr + 1) k
    exact ih _ _ _

/-- The doubling loop of `chunk_memset` runs for a number of iterations that
makes `2 ^ iterations * dist` reach 8: with that much fuel the fuel-indexed
loop returns exactly the loop's result. -/
theorem chunk_memset_loop_fuel_spec : ∀ (fuel : Nat) (m : Mem) (out fr : Int) (dist len : Nat),
    1 ≤ dist → 8 ≤ 2 ^ fuel * dist →
    chunk_memset_loop_fuel fuel m out fr dist len = some (chunk_memset_loop m out fr dist len) := by
  intro fuel
  induction fuel with
  | zero =>
    intro m out fr dist len h1 hf
    have h8 : 8 ≤ dist := by simpa using hf
    unfold chunk_memset_loop_fuel
    rw [chunk_memset_loop]
    rw [if_neg (by omega : ¬(dist < len ∧ dist < 8)), dif_neg (by omega : ¬dist = 0),
      dif_neg (by omega : ¬(dist < len ∧ dist < 8))]
  | succ f ih =>
    intro m out fr dist len h1 hf
    have hstep : chunk_memset_loop_fuel (f + 1) m out fr dist len =
        if dist < len ∧ dist < 8 then
          (if len - dist < 8 then
            some (set_bytes (copy_8_bytes m out fr).1 (out + (dist : Int)) fr (dist + dist)
              (len - dist))
          else chunk_memset_loop_fuel f (copy_8_bytes m out fr).1 (out + (dist : Int)) fr
            (dist + dist) (len - dist))
        else some (chunk_memcpy m out fr len) := rfl
    rw [hstep]
    rw [chunk_memset_loop, dif_neg (by omega : ¬dist = 0)]
    by_cases hc : dist < len ∧ dist < 8
    · rw [if_pos hc, dif_pos hc]
      by_cases hlt : len - dist < 8
      · rw [if_pos hlt, if_pos hlt]
      · rw [if_neg hlt, if_neg hlt]
        refine ih _ _ _ _ _ (by omega) ?_
        have h : 2 ^ f * (dist + dist) = 2 ^ (f + 1) * dist := by ring
        omega
    · rw [if_neg hc, dif_neg hc]

/-! ### The claims -/

/-- Claim C1: the claim asserts that for `len >= 8` the `assert(0)` in the
`default` branch of `byte_memset`'s `switch (by8)` is unreachable.  The code
says otherwise: cases 7..1 of that switch have no `break` and fall through
into `default`, and `by8 = 0` selects `default` directly, so the assertion is
executed on every call with `len >= 8`.  This theorem proves the assertion is
always reached on the claim's domain, refuting the claim (the `default:
break` of `chunk_memcpy` shows the intended shape). -/
theorem c1_byte_memset_assert0_reachable (len : Nat) (_h8 : 8 ≤ len) :
    byte_memset_assert0_reached len = true := by
  unfold byte_memset_assert0_reached byte_memset_by8_reaches_assert0
  split <;> rfl

theorem c1_byte_memset_assert0_reachable_witness :
    8 ≤ 8 ∧ byte_memset_assert0_reached 8 = true :=
  ⟨by decide, c1_byte_memset_assert0_reachable 8 (by decide)⟩

/-- Claim C2: for every `len >= 8`, `byte_memset(out, len)` writes the byte
stored at `out[-1]` to each of `out[0..len-1]` and returns `out + len`. -/
theorem c2_byte_memset_fill (m : Mem) (out : Int) (len : Nat) (h8 : 8 ≤ len) :
    (byte_memset m out len).2 = out + (len : Int) ∧
    (∀ i : Nat, i < len → (byte_memset m out len).1 (out + (i : Int)) = m (out - 1)) := by
  obtain ⟨hc, hv, _⟩ := byte_memset_spec m out len h8
  exact ⟨hc, hv⟩

theorem c2_byte_memset_fill_witness :
    8 ≤ 20 ∧ (byte_memset memA 0 20).2 = (0 : Int) + ((20 : Nat) : Int) ∧
    13 < 20 ∧ (byte_memset memA 0 20).1 (0 + ((13 : Nat) : Int)) = memA (0 - 1) ∧
    memA (0 - 1) = 0x7A :=
  ⟨by decide, (c2_byte_memset_fill memA 0 20 (by decide)).1, by decide,
   (c2_byte_memset_fill memA 0 20 (by decide)).2 13 (by decide), by decide⟩

/-- Claim C3: `chunk_copy(out, out - 4, dist = 4, len = 11)` writes the eleven
bytes `A,B,C,D,A,B,C,D,A,B,C` (the distance-4 cyclic repeat of the four bytes
immediately preceding `out`) and returns `out + 11`. -/
theorem c3_chunk_copy_dist4_len11 (m : Mem) (out : Int) :
    (chunk_copy m out (out - 4) 4 11).2 = out + 11 ∧
    (∀ i : Nat, i < 11 →
      (chunk_copy m out (out - 4) 4 11).1 (out + (i : Int)) =
        m (out - 4 + ((i % 4 : Nat) : Int))) := by
  have hred : chunk_copy m out (out - 4) 4 11 = chunk_memset m out (out - 4) 4 11 := by
    simp [chunk_copy]
  obtain ⟨hc, hv, _⟩ := chunk_memset_pattern m out 4 11 (by norm_num) (by norm_num) (by norm_num)
  have he : ((4 : Nat) : Int) = (4 : Int) := by norm_num
  rw [he] at hc hv
  constructor
  · rw [hred, hc]
    norm_num
  · intro i hi
    rw [hred]
    exact hv i hi

theorem c3_chunk_copy_dist4_len11_witness :
    6 < 11 ∧ (chunk_copy memA 0 (0 - 4) 4 11).1 (0 + ((6 : Nat) : Int)) =
      memA (0 - 4 + ((6 % 4 : Nat) : Int)) :=
  ⟨by decide, (c3_chunk_copy_dist4_len11 memA 0).2 6 (by decide)⟩

/-- Claim C4: with the `dist` pattern bytes immediately before the cursor,
`set_bytes` (and `chunk_memset`) produce `output[i] = pattern[i % dist]` for
all `i < len` and return `out + len`, for `1 ≤ dist ≤ len < 8`; and whenever
`dist >= len`, `set_bytes` delegates to `copy_bytes` (a plain byte-wise
copy). -/
theorem c4_set_bytes_pattern (m : Mem) (out : Int) (dist len : Nat)
    (h1 : 1 ≤ dist) (hdl : dist ≤ len) (hlen : len < 8) :
    ((set_bytes m out (out - (dist : Int)) dist len).2 = out + (len : Int) ∧
      (∀ i : Nat, i < len →
        (set_bytes m out (out - (dist : Int)) dist len).1 (out + (i : Int)) =
          m (out - dist + ((i % dist : Nat) : Int))) ∧
      (chunk_memset m out (out - (dist : Int)) dist len).2 = out + (len : Int) ∧
      (∀ i : Nat, i < len →
        (chunk_memset m out (out - (dist : Int)) dist len).1 (out + (i : Int)) =
          m (out - dist + ((i % dist : Nat) : Int)))) ∧
    (∀ (fr : Int) (d l : Nat), l ≤ d → set_bytes m out fr d l = copy_bytes m out fr l) := by
  constructor
  · obtain ⟨hc, hg, _⟩ := agrees_set_bytes (cyc m out dist) m out dist len h1 hlen
      (cyc_per m out dist h1) (fun a ha => (cyc_below m out dist a ha).symm)
    obtain ⟨hc2, hv2⟩ := chunk_memset_pattern_small m out dist len h1 hdl hlen
    refine ⟨hc, ?_, hc2, hv2⟩
    intro i hi
    rw [hg (out + (i : Int)) (by omega), cyc_at m out dist i]
  · intro fr d l hld
    unfold set_bytes
    rw [if_pos hld]

theorem c4_set_bytes_pattern_witness :
    (1 ≤ 3 ∧ 3 ≤ 7 ∧ 7 < 8 ∧ 5 < 7) ∧
    (set_bytes memA 0 (0 - ((3 : Nat) : Int)) 3 7).1 (0 + ((5 : Nat) : Int)) =
      memA (0 - 3 + ((5 % 3 : Nat) : Int)) ∧
    set_bytes memA 0 50 9 4 = copy_bytes memA 0 50 4 := by
  have h := c4_set_bytes_pattern memA 0 3 7 (by decide) (by decide) (by decide)
  exact ⟨by decide, h.1.2.1 5 (by decide), h.2 50 9 4 (by decide)⟩

/-- Claim C5: for `1 < dist < len` with `len >= 8`, the doubling loop of
`chunk_memset` terminates — three iterations of fuel always suffice — and the
routine produces the correct cyclic-pattern output (in particular at the
boundary cases `dist = len - 1`, `dist = 2`, and `dist = 8`, which satisfy
these bounds) and returns `out + len`. -/
theorem c5_chunk_memset_terminates (m : Mem) (out : Int) (dist len : Nat)
    (h1 : 1 < dist) (hdl : dist < len) (h8 : 8 ≤ len) :
    chunk_memset_loop_fuel 3 m out (out - (dist : Int)) dist len =
      some (chunk_memset_loop m out (out - (dist : Int)) dist len) ∧
    (chunk_memset m out (out - (dist : Int)) dist len).2 = out + (len : Int) ∧
    (∀ i : Nat, i < len →
      (chunk_memset m out (out - (dist : Int)) dist len).1 (out + (i : Int)) =
        m (out - dist + ((i % dist : Nat) : Int))) := by
  obtain ⟨hc, hv, _⟩ := chunk_memset_pattern m out dist len (by omega) hdl h8
  refine ⟨?_, hc, hv⟩
  refine chunk_memset_loop_fuel_spec 3 m out (out - (dist : Int)) dist len (by omega) ?_
  rw [show (2 : Nat) ^ 3 = 8 from by norm_num]
  omega

theorem c5_chunk_memset_terminates_witness :
    (1 < 2 ∧ 2 < 20 ∧ 8 ≤ 20) ∧
    chunk_memset_loop_fuel 3 memA 0 (0 - ((2 : Nat) : Int)) 2 20 =
      some (chunk_memset_loop memA 0 (0 - ((2 : Nat) : Int)) 2 20) ∧
    7 < 20 ∧ (chunk_memset memA 0 (0 - ((2 : Nat) : Int)) 2 20).1 (0 + ((7 : Nat) : Int)) =
      memA (0 - 2 + ((7 % 2 : Nat) : Int)) := by
  have h := c5_chunk_memset_terminates memA 0 2 20 (by decide) (by decide) (by decide)
  exact ⟨by decide, h.1, by decide, h.2.2 7 (by decide)⟩

/-- Claim C6: when `dist = 0` or `dist >= len`, and the source window does not
overlap the destination window, `chunk_copy` writes exactly the `len` source
bytes unchanged and returns `out + len` — its output is a plain byte-wise
copy, whichever internal routine the dispatch selects. -/
theorem c6_chunk_copy_nonoverlap (m : Mem) (out fr : Int) (dist len : Nat)
    (hrange : dist = 0 ∨ len ≤ dist)
    (hdisj : out + (len : Int) ≤ fr ∨ fr + (len : Int) ≤ out) :
    (chunk_copy m out fr dist len).2 = out + (len : Int) ∧
    (∀ a : Int, (chunk_copy m out fr dist len).1 a =
      if out ≤ a ∧ a < out + (len : Int) then m (fr + (a - out)) else m a) := by
  unfold chunk_copy
  by_cases hl : len < 8
  · rw [if_pos hl]
    by_cases hd : 0 < dist
    · rw [if_pos hd]
      have hld : len ≤ dist := by
        rcases hrange with h | h
        · omega
        · exact h
      unfold set_bytes
      rw [if_pos hld]
      exact ⟨(copy_bytes_frame m out fr len hl).1, copy_bytes_plain m out fr len hl hdisj⟩
    · rw [if_neg hd]
      exact ⟨(copy_bytes_frame m out fr len hl).1, copy_bytes_plain m out fr len hl hdisj⟩
  · rw [if_neg hl]
    have hd1 : ¬dist = 1 := by
      rcases hrange with h | h <;> omega
    rw [if_neg hd1]
    by_cases hd : 0 < dist
    · rw [if_pos hd]
      have hld : len ≤ dist := by
        rcases hrange with h | h
        · omega
        · exact h
      unfold chunk_memset
      rw [if_pos hld]
      exact ⟨(chunk_memcpy_frame m out fr len (by omega)).1,
        chunk_memcpy_plain m out fr len (by omega) hdisj⟩
    · rw [if_neg hd]
      exact ⟨(chunk_memcpy_frame m out fr len (by omega)).1,
        chunk_memcpy_plain m out fr len (by omega) hdisj⟩

theorem c6_chunk_copy_nonoverlap_witness :
    ((0 : Nat) = 0 ∨ 9 ≤ (0 : Nat)) ∧ ((0 : Int) + ((9 : Nat) : Int) ≤ 100 ∨ (100 : Int) + ((9 : Nat) : Int) ≤ 0) ∧
    (chunk_copy memA 0 100 0 9).2 = (0 : Int) + ((9 : Nat) : Int) ∧
    (chunk_copy memA 0 100 0 9).1 3 =
      if (0 : Int) ≤ 3 ∧ (3 : Int) < 0 + ((9 : Nat) : Int) then memA (100 + (3 - 0)) else memA 3 := by
  have h := c6_chunk_copy_nonoverlap memA 0 100 0 9 (by decide) (by decide)
  exact ⟨by decide, by decide, h.1, h.2 3⟩

/-- Claim C7: when `|from - out|` is below the chunk width (16 in the SSE2
build), `safe_copy` behaves exactly as the element-by-element left-to-right
byte copy — whatever the overlap — and returns `out + len`; for distances of
at least the chunk width it returns exactly `fast_copy`'s result. -/
theorem c7_safe_copy_aliasing (m : Mem) (out fr : Int) (len : Nat) :
    ((fr - out).natAbs < 16 →
      safe_copy m out fr len = left_to_right_copy_spec m out fr len) ∧
    (16 ≤ (fr - out).natAbs → safe_copy m out fr len = fast_copy m out fr len) ∧
    (safe_copy m out fr len).2 = out + (len : Int) := by
  refine ⟨?_, ?_, (safe_copy_frame m out fr len).1⟩
  · intro h
    unfold safe_copy
    rw [if_pos h]
    exact safe_copy_loop_eq_spec len m out fr
  · intro h
    unfold safe_copy
    rw [if_neg (by omega)]

theorem c7_safe_copy_aliasing_witness :
    ((5 : Int) - 0).natAbs < 16 ∧ safe_copy memA 0 5 3 = left_to_right_copy_spec memA 0 5 3 ∧
    16 ≤ ((50 : Int) - 0).natAbs ∧ safe_copy memA 0 50 20 = fast_copy memA 0 50 20 :=
  ⟨by decide, (c7_safe_copy_aliasing memA 0 5 3).1 (by decide), by decide,
   (c7_safe_copy_aliasing memA 0 50 20).2.1 (by decide)⟩

/-- Claim C8: every bulk routine, called with its preconditions satisfied,
writes only below `out + len + chunk_width - 1` (and never below `out`): the
overshoot past the logical `len` is bounded by `chunk_width - 1` bytes, and
everything at or beyond `out + len + chunk_width - 1` is untouched. -/
theorem c8_overshoot_containment :
    (∀ (m : Mem) (out fr : Int) (len : Nat), 8 ≤ len →
      ∀ a : Int, a < out ∨ out + (len : Int) + 7 ≤ a → (chunk_memcpy m out fr len).1 a = m a) ∧
    (∀ (m : Mem) (out fr : Int) (len : Nat), 16 ≤ len →
      ∀ a : Int, a < out ∨ out + (len : Int) + 15 ≤ a → (chunk_memcpy_16 m out fr len).1 a = m a) ∧
    (∀ (m : Mem) (out : Int) (len : Nat), 8 ≤ len →
      ∀ a : Int, a < out ∨ out + (len : Int) + 7 ≤ a → (byte_memset m out len).1 a = m a) ∧
    (∀ (m : Mem) (out : Int) (dist len : Nat), 1 ≤ dist → 8 ≤ len →
      ∀ a : Int, a < out ∨ out + (len : Int) + 7 ≤ a →
        (chunk_memset m out (out - (dist : Int)) dist len).1 a = m a) ∧
    (∀ (m : Mem) (out fr : Int) (dist len : Nat), (0 < dist → fr = out - (dist : Int)) →
      ∀ a : Int, a < out ∨ out + (len : Int) + 7 ≤ a → (chunk_copy m out fr dist len).1 a = m a) := by
  refine ⟨?_, ?_, ?_, ?_, ?_⟩
  · intro m out fr len h8 a ha
    exact (chunk_memcpy_frame m out fr len h8).2 a (by omega)
  · intro m out fr len h16 a ha
    exact (chunk_memcpy_16_frame m out fr len h16).2 a (by omega)
  · intro m out len h8 a ha
    exact (byte_memset_spec m out len h8).2.2 a (by omega)
  · intro m out dist len h1 h8 a ha
    exact (chunk_memset_frame m out dist len h1 h8).2 a (by omega)
  · intro m out fr dist len hfr a ha
    exact (chunk_copy_frame m out fr dist len hfr).2 a (by omega)

theorem c8_overshoot_containment_witness :
    (8 ≤ 9 ∧ (chunk_memcpy memA 0 100 9).1 (-2) = memA (-2)) ∧
    (16 ≤ 17 ∧ (chunk_memcpy_16 memA 0 100 17).1 40 = memA 40) ∧
    (8 ≤ 8 ∧ (byte_memset memA 0 8).1 20 = memA 20) ∧
    (1 ≤ 3 ∧ 8 ≤ 12 ∧ (chunk_memset memA 0 (0 - ((3 : Nat) : Int)) 3 12).1 (-1) = memA (-1)) ∧
    (chunk_copy memA 0 (0 - ((4 : Nat) : Int)) 4 11).1 30 = memA 30 := by
  refine ⟨⟨by decide, ?_⟩, ⟨by decide, ?_⟩, ⟨by decide, ?_⟩, ⟨by decide, by decide, ?_⟩, ?_⟩
  · exact c8_overshoot_containment.1 memA 0 100 9 (by decide) (-2) (by decide)
  · exact c8_overshoot_containment.2.1 memA 0 100 17 (by decide) 40 (by decide)
  · exact c8_overshoot_containment.2.2.1 memA 0 8 (by decide) 20 (by decide)
  · exact c8_overshoot_containment.2.2.2.1 memA 0 3 12 (by decide) (by decide) (-1) (by decide)
  · exact c8_overshoot_containment.2.2.2.2 memA 0 (0 - ((4 : Nat) : Int)) 4 11
      (fun _ => rfl) 30 (by decide)

/-- Claim C9: under the documented preconditions no routine in the file ever
writes at or beyond `out + len` (nor below `out`), and every routine returns
exactly `out + len`: the prime copy plus the `out += len % chunk_width`
adjustment make the chunked writes end exactly at `out + len`, so the
chunk_width - 1 overshoot allowance is never used. -/
theorem c9_no_overshoot :
    (∀ (m : Mem) (out fr : Int) (len : Nat), len < 8 →
      (copy_bytes m out fr len).2 = out + (len : Int) ∧
      (∀ a : Int, a < out ∨ out + (len : Int) ≤ a → (copy_bytes m out fr len).1 a = m a)) ∧
    (∀ (m : Mem) (out : Int) (dist len : Nat), 1 ≤ dist → len < 8 →
      (set_bytes m out (out - (dist : Int)) dist len).2 = out + (len : Int) ∧
      (∀ a : Int, a < out ∨ out + (len : Int) ≤ a →
        (set_bytes m out (out - (dist : Int)) dist len).1 a = m a)) ∧
    (∀ (m : Mem) (out fr : Int) (len : Nat), 8 ≤ len →
      (chunk_memcpy m out fr len).2 = out + (len : Int) ∧
      (∀ a : Int, a < out ∨ out + (len : Int) ≤ a → (chunk_memcpy m out fr len).1 a = m a)) ∧
    (∀ (m : Mem) (out fr : Int) (len : Nat), 16 ≤ len →
      (chunk_memcpy_16 m out fr len).2 = out + (len : Int) ∧
      (∀ a : Int, a < out ∨ out + (len : Int) ≤ a → (chunk_memcpy_16 m out fr len).1 a = m a)) ∧
    (∀ (m : Mem) (out : Int) (len : Nat), 8 ≤ len →
      (byte_memset m out len).2 = out + (len : Int) ∧
      (∀ a : Int, a < out ∨ out + (len : Int) ≤ a → (byte_memset m out len).1 a = m a)) ∧
    (∀ (m : Mem) (out : Int) (dist len : Nat), 1 ≤ dist → 8 ≤ len →
      (chunk_memset m out (out - (dist : Int)) dist len).2 = out + (len : Int) ∧
      (∀ a : Int, a < out ∨ out + (len : Int) ≤ a →
        (chunk_memset m out (out - (dist : Int)) dist len).1 a = m a)) ∧
    (∀ (m : Mem) (out fr : Int) (dist len : Nat), (0 < dist → fr = out - (dist : Int)) →
      (chunk_copy m out fr dist len).2 = out + (len : Int) ∧
      (∀ a : Int, a < out ∨ out + (len : Int) ≤ a → (chunk_copy m out fr dist len).1 a = m a)) ∧
    (∀ (m : Mem) (out fr : Int) (len : Nat),
      (fast_copy m out fr len).2 = out + (len : Int) ∧
      (∀ a : Int, a < out ∨ out + (len : Int) ≤ a → (fast_copy m out fr len).1 a = m a)) ∧
    (∀ (m : Mem) (out fr : Int) (len : Nat),
      (safe_copy m out fr len).2 = out + (len : Int) ∧
      (∀ a : Int, a < out ∨ out + (len : Int) ≤ a → (safe_copy m out fr len).1 a = m a)) := by
  refine ⟨?_, ?_, ?_, ?_, ?_, ?_, ?_, ?_, ?_⟩
  · intro m out fr len hl
    exact copy_bytes_frame m out fr len hl
  · intro m out dist len h1 hl
    exact set_bytes_frame m out dist len h1 hl
  · intro m out fr len h8
    exact chunk_memcpy_frame m out fr len h8
  · intro m out fr len h16
    exact chunk_memcpy_16_frame m out fr len h16
  · intro m out len h8
    obtain ⟨hc, _, hf⟩ := byte_memset_spec m out len h8
    exact ⟨hc, hf⟩
  · intro m out dist len h1 h8
    exact chunk_memset_frame m out dist len h1 h8
  · intro m out fr dist len hfr
    exact chunk_copy_frame m out fr dist len hfr
  · intro m out fr len
    exact fast_copy_frame m out fr len
  · intro m out fr len
    exact safe_copy_frame m out fr len

theorem c9_no_overshoot_witness :
    (5 < 8 ∧ (copy_bytes memA 0 100 5).2 = (0 : Int) + ((5 : Nat) : Int)) ∧
    (1 ≤ 2 ∧ 6 < 8 ∧ (set_bytes memA 0 (0 - ((2 : Nat) : Int)) 2 6).1 6 = memA 6) ∧
    (8 ≤ 10 ∧ (chunk_memcpy memA 0 100 10).1 10 = memA 10) ∧
    (16 ≤ 16 ∧ (chunk_memcpy_16 memA 0 100 16).1 16 = memA 16) ∧
    (8 ≤ 13 ∧ (byte_memset memA 0 13).1 13 = memA 13) ∧
    (1 ≤ 5 ∧ 8 ≤ 21 ∧ (chunk_memset memA 0 (0 - ((5 : Nat) : Int)) 5 21).1 21 = memA 21) ∧
    (chunk_copy memA 0 (0 - ((2 : Nat) : Int)) 2 9).1 9 = memA 9 ∧
    (fast_copy memA 0 100 12).1 12 = memA 12 ∧
    (safe_copy memA 0 3 11).1 11 = memA 11 := by
  refine ⟨⟨by decide, ?_⟩, ⟨by decide, by decide, ?_⟩, ⟨by decide, ?_⟩, ⟨by decide, ?_⟩,
    ⟨by decide, ?_⟩, ⟨by decide, by decide, ?_⟩, ?_, ?_, ?_⟩
  · exact (c9_no_overshoot.1 memA 0 100 5 (by decide)).1
  · exact (c9_no_overshoot.2.1 memA 0 2 6 (by decide) (by decide)).2 6 (by decide)
  · exact (c9_no_overshoot.2.2.1 memA 0 100 10 (by decide)).2 10 (by decide)
  · exact (c9_no_overshoot.2.2.2.1 memA 0 100 16 (by decide)).2 16 (by decide)
  · exact (c9_no_overshoot.2.2.2.2.1 memA 0 13 (by decide)).2 13 (by decide)
  · exact (c9_no_overshoot.2.2.2.2.2.1 memA 0 5 21 (by decide) (by decide)).2 21 (by decide)
  · exact (c9_no_overshoot.2.2.2.2.2.2.1 memA 0 (0 - ((2 : Nat) : Int)) 2 9
      (fun _ => rfl)).2 9 (by decide)
  · exact (c9_no_overshoot.2.2.2.2.2.2.2.1 memA 0 100 12).2 12 (by decide)
  · exact (c9_no_overshoot.2.2.2.2.2.2.2.2 memA 0 3 11).2 11 (by decide)

/-- Claim C10: one iteration of `chunk_memset`'s doubling loop preserves the
relation `from = out - dist`: if it holds on entry, then the continuation
(the tail `set_bytes` or the next loop iteration) is invoked with source
argument exactly `out' - dist'` for the updated `out' = out + dist` and
`dist' = dist + dist`, i.e. the loop always reads `dist` bytes behind the
current write cursor, from already-written output. -/
theorem c10_chunk_memset_invariant (m : Mem) (out fr : Int) (dist len : Nat)
    (hfr : fr = out - (dist : Int)) (h1 : 1 ≤ dist) (hcond : dist < len ∧ dist < 8) :
    chunk_memset_loop m out fr dist len =
      if len - dist < 8 then
        set_bytes (copy_8_bytes m out fr).1 (out + (dist : Int))
          ((out + (dist : Int)) - ((dist + dist : Nat) : Int)) (dist + dist) (len - dist)
      else
        chunk_memset_loop (copy_8_bytes m out fr).1 (out + (dist : Int))
          ((out + (dist : Int)) - ((dist + dist : Nat) : Int)) (dist + dist) (len - dist) := by
  rw [chunk_memset_loop]
  rw [dif_neg (by omega : ¬dist = 0), dif_pos hcond]
  have h : fr = (out + (dist : Int)) - ((dist + dist : Nat) : Int) := by
    rw [hfr]
    push_cast
    ring
  by_cases hlt : len - dist < 8
  · rw [if_pos hlt, if_pos hlt, ← h]
  · rw [if_neg hlt, if_neg hlt, ← h]

theorem c10_chunk_memset_invariant_witness :
    ((-3 : Int) = 0 - ((3 : Nat) : Int) ∧ 1 ≤ 3 ∧ (3 < 20 ∧ 3 < 8)) ∧
    chunk_memset_loop memA 0 (-3) 3 20 =
      (if 20 - 3 < 8 then
        set_bytes (copy_8_bytes memA 0 (-3)).1 (0 + ((3 : Nat) : Int))
          ((0 + ((3 : Nat) : Int)) - ((3 + 3 : Nat) : Int)) (3 + 3) (20 - 3)
      else
        chunk_memset_loop (copy_8_bytes memA 0 (-3)).1 (0 + ((3 : Nat) : Int))
          ((0 + ((3 : Nat) : Int)) - ((3 + 3 : Nat) : Int)) (3 + 3) (20 - 3)) :=
  ⟨⟨by decide, by decide, by decide⟩,
   c10_chunk_memset_invariant memA 0 (-3) 3 20 (by decide) (by decide) (by decide)⟩
